import Mathlib

/-!
Verification development for the MCP (Multi-Agent Communication Protocol)
message bus of this repository: the wire envelope codec (JSON), the bus
server's per-connection handler and channel dispatch (src/mcp/server.py),
the server-side market and document connectors, and the client-side bus
helpers and typed facades (src/mcp/clients.py).

Modelling conventions, throughout the file:

* Python values reachable from the bus are modelled by `PyVal` (JSON values
  plus `bytes`); floats do not occur in the protocol's envelopes and are
  outside the model. Python `==` on these values is `pyBeq` (structural;
  it agrees with Python `==` at every comparison the code performs, all of
  which have a string operand).
* Exceptions are modelled by `Except PyErr`; a `.error` value is a raised
  exception propagating to the nearest handler.
* The `json.dumps`/`json.loads` pair is modelled by `dumps`/`loads`:
  `dumps` emits Python's default format (`", "` and `": "` separators,
  strings escaped as json.dumps escapes them) and refuses, as json.dumps
  raises `TypeError`, exactly when a `bytes` value occurs; `loads` is a
  whitespace-tolerant recursive-descent parser with a fuel argument that
  is always sufficient (`input.length + 1`).
* External collaborators are oracles: `Download` stands for
  `yfinance.download` (rows already converted to records), `Http` for an
  HTTP GET returning status, headers and body bytes.
* `async with websockets.connect(...)` is modelled by `withConnection`,
  which records that the connection is closed on every exit path.
-/

/-! Python-value model (`PyVal`) and Python structural equality (`pyBeq`). -/

inductive PyVal where
  | null
  | bool (b : Bool)
  | int (n : Int)
  | str (s : String)
  | bytes (bs : List Nat)
  | list (xs : List PyVal)
  | dict (kvs : List (String × PyVal))

mutual

def pyBeq : PyVal → PyVal → Bool
  | .null, .null => true
  | .bool a, .bool b => a == b
  | .int a, .int b => a == b
  | .str a, .str b => a == b
  | .bytes a, .bytes b => a == b
  | .list xs, .list ys => pyBeqList xs ys
  | .dict xs, .dict ys => pyBeqMembers xs ys
  | _, _ => false

def pyBeqList : List PyVal → List PyVal → Bool
  | [], [] => true
  | x :: xs, y :: ys => pyBeq x y && pyBeqList xs ys
  | _, _ => false

def pyBeqMembers : List (String × PyVal) → List (String × PyVal) → Bool
  | [], [] => true
  | (k, v) :: xs, (k2, v2) :: ys => k == k2 && pyBeq v v2 && pyBeqMembers xs ys
  | _, _ => false

end

/-! The envelope codec: model of `json.dumps` / `json.loads`. -/

def isWsChar (c : Char) : Bool :=
  c = ' ' || c = '\t' || c = '\n' || c = '\r'

def skipWs : List Char → List Char
  | [] => []
  | c :: l => if isWsChar c then skipWs l else c :: l

def hexDigit (d : Nat) : Char :=
  if d < 10 then Char.ofNat (48 + d) else Char.ofNat (87 + d)

def hexVal (c : Char) : Option Nat :=
  if 48 ≤ c.toNat ∧ c.toNat ≤ 57 then some (c.toNat - 48)
  else if 97 ≤ c.toNat ∧ c.toNat ≤ 102 then some (c.toNat - 87)
  else if 65 ≤ c.toNat ∧ c.toNat ≤ 70 then some (c.toNat - 55)
  else none

def digitChar (d : Nat) : Char := Char.ofNat (48 + d)

def digitVal (c : Char) : Nat := c.toNat - 48

def isDigitC (c : Char) : Bool := 48 ≤ c.toNat && c.toNat ≤ 57

def natToDecAux : Nat → List Char → List Char
  | 0, acc => acc
  | n + 1, acc => natToDecAux ((n + 1) / 10) (digitChar ((n + 1) % 10) :: acc)

def natToDec (n : Nat) : List Char :=
  if n = 0 then ['0'] else natToDecAux n []

def intToDec (n : Int) : List Char :=
  if n < 0 then '-' :: natToDec n.natAbs else natToDec n.toNat

def escChar (c : Char) : List Char :=
  if c = '"' then ['\\', '"']
  else if c = '\\' then ['\\', '\\']
  else if c = '\n' then ['\\', 'n']
  else if c = '\r' then ['\\', 'r']
  else if c = '\t' then ['\\', 't']
  else if c.toNat = 8 then ['\\', 'b']
  else if c.toNat = 12 then ['\\', 'f']
  else if c.toNat < 32 then ['\\', 'u', '0', '0', hexDigit (c.toNat / 16), hexDigit (c.toNat % 16)]
  else [c]

def escList : List Char → List Char
  | [] => []
  | c :: cs => escChar c ++ escList cs

def encStr (s : String) : List Char := '"' :: (escList s.toList ++ ['"'])

mutual

def serCore : PyVal → List Char
  | .null => "null".toList
  | .bool true => "true".toList
  | .bool false => "false".toList
  | .int n => intToDec n
  | .str s => encStr s
  | .bytes _ => []
  | .list xs => '[' :: (serElemsList xs ++ [']'])
  | .dict kvs => '{' :: (serMembersList kvs ++ ['}'])

def serElemsList : List PyVal → List Char
  | [] => []
  | [x] => serCore x
  | x :: xs => serCore x ++ ',' :: ' ' :: serElemsList xs

def serMembersList : List (String × PyVal) → List Char
  | [] => []
  | [(k, v)] => encStr k ++ ':' :: ' ' :: serCore v
  | (k, v) :: ms => encStr k ++ ':' :: ' ' :: (serCore v ++ ',' :: ' ' :: serMembersList ms)

end

def noDupStr : List String → Bool
  | [] => true
  | k :: ks => !ks.contains k && noDupStr ks

mutual

def pyJsonable : PyVal → Bool
  | .null => true
  | .bool _ => true
  | .int _ => true
  | .str _ => true
  | .bytes _ => false
  | .list xs => pyJsonableList xs
  | .dict kvs => noDupStr (kvs.map Prod.fst) && pyJsonableMembers kvs

def pyJsonableList : List PyVal → Bool
  | [] => true
  | x :: xs => pyJsonable x && pyJsonableList xs

def pyJsonableMembers : List (String × PyVal) → Bool
  | [] => true
  | (_, v) :: ms => pyJsonable v && pyJsonableMembers ms

end

mutual

def nsize : PyVal → Nat
  | .str s => 1 + s.toList.length
  | .list xs => 1 + nsizeElems xs
  | .dict kvs => 1 + nsizeMembers kvs
  | _ => 1

def nsizeElems : List PyVal → Nat
  | [] => 0
  | x :: xs => 1 + nsize x + nsizeElems xs

def nsizeMembers : List (String × PyVal) → Nat
  | [] => 0
  | (k, v) :: ms => 1 + k.toList.length + nsize v + nsizeMembers ms

end

def unescape (e : Char) : Option Char :=
  if e = '"' then some '"'
  else if e = '\\' then some '\\'
  else if e = '/' then some '/'
  else if e = 'b' then some (Char.ofNat 8)
  else if e = 'f' then some (Char.ofNat 12)
  else if e = 'n' then some '\n'
  else if e = 'r' then some '\r'
  else if e = 't' then some '\t'
  else none

def parseStrChars : Nat → List Char → Option (List Char × List Char)
  | 0, _ => none
  | f + 1, input =>
    match input with
    | [] => none
    | c :: rest =>
      if c = '"' then some ([], rest)
      else if c = '\\' then
        match rest with
        | 'u' :: h1 :: h2 :: h3 :: h4 :: rest2 =>
          match hexVal h1, hexVal h2, hexVal h3, hexVal h4 with
          | some v1, some v2, some v3, some v4 =>
            (parseStrChars f rest2).map fun (cs, r) =>
              (Char.ofNat (((v1 * 16 + v2) * 16 + v3) * 16 + v4) :: cs, r)
          | _, _, _, _ => none
        | e :: rest2 =>
          match unescape e with
          | some u => (parseStrChars f rest2).map fun (cs, r) => (u :: cs, r)
          | none => none
        | [] => none
      else if c.toNat < 32 then none
      else (parseStrChars f rest).map fun (cs, r) => (c :: cs, r)

def parseDigits : List Char → Nat → Nat × List Char
  | [], acc => (acc, [])
  | c :: cs, acc =>
    if isDigitC c then parseDigits cs (acc * 10 + digitVal c) else (acc, c :: cs)

def startsWithDigit : List Char → Bool
  | [] => false
  | c :: _ => isDigitC c

def parseNat1 : List Char → Option (Nat × List Char)
  | [] => none
  | c :: rest =>
    if isDigitC c then
      if c = '0' && startsWithDigit rest then none
      else some (parseDigits rest (digitVal c))
    else none

mutual

def parseVal : Nat → List Char → Option (PyVal × List Char)
  | 0, _ => none
  | f + 1, input =>
    match skipWs input with
    | [] => none
    | c :: rest =>
      if c = 'n' then
        match rest with
        | 'u' :: 'l' :: 'l' :: r => some (.null, r)
        | _ => none
      else if c = 't' then
        match rest with
        | 'r' :: 'u' :: 'e' :: r => some (.bool true, r)
        | _ => none
      else if c = 'f' then
        match rest with
        | 'a' :: 'l' :: 's' :: 'e' :: r => some (.bool false, r)
        | _ => none
      else if c = '"' then
        (parseStrChars (f + 1) rest).map fun (cs, r) => (.str (String.mk cs), r)
      else if c = '[' then
        match skipWs rest with
        | [] => none
        | c2 :: r2 =>
          if c2 = ']' then some (.list [], r2)
          else (parseElems f (c2 :: r2)).map fun (vs, r) => (.list vs, r)
      else if c = '{' then
        match skipWs rest with
        | [] => none
        | c2 :: r2 =>
          if c2 = '}' then some (.dict [], r2)
          else (parseMembers f (c2 :: r2)).map fun (ms, r) => (.dict ms, r)
      else if c = '-' then
        (parseNat1 rest).map fun (m, r) => (.int (-(m : Int)), r)
      else if isDigitC c then
        (parseNat1 (c :: rest)).map fun (m, r) => (.int (m : Int), r)
      else none

def parseElems : Nat → List Char → Option (List PyVal × List Char)
  | 0, _ => none
  | f + 1, input =>
    match parseVal f input with
    | none => none
    | some (v, r) =>
      match skipWs r with
      | ',' :: r2 => (parseElems f r2).map fun (vs, r3) => (v :: vs, r3)
      | ']' :: r2 => some ([v], r2)
      | _ => none

def parseMembers : Nat → List Char → Option (List (String × PyVal) × List Char)
  | 0, _ => none
  | f + 1, input =>
    match skipWs input with
    | '"' :: r =>
      match parseStrChars (f + 1) r with
      | none => none
      | some (kcs, r2) =>
        match skipWs r2 with
        | ':' :: r3 =>
          match parseVal f r3 with
          | none => none
          | some (v, r4) =>
            match skipWs r4 with
            | ',' :: r5 => (parseMembers f r5).map fun (ms, r6) => ((String.mk kcs, v) :: ms, r6)
            | '}' :: r5 => some ([(String.mk kcs, v)], r5)
            | _ => none
        | _ => none
    | _ => none

end

def dumps (v : PyVal) : Option String :=
  if pyJsonable v then some (String.mk (serCore v)) else none

def loads (s : String) : Option PyVal :=
  match parseVal (s.length + 1) s.toList with
  | some (v, rest) => if skipWs rest = [] then some v else none
  | none => none

def decStep (a : Nat) (c : Char) : Nat := a * 10 + digitVal c

def valHead (c : Char) : Bool :=
  c = 'n' || c = 't' || c = 'f' || c = '"' || c = '[' || c = '{' || c = '-' || isDigitC c

def ParseSerOk (v : PyVal) : Prop :=
  ∀ f rest, pyJsonable v = true → nsize v ≤ f → startsWithDigit rest = false →
    parseVal f (serCore v ++ rest) = some (v, rest)

/-! Python runtime helpers -/

def pyTruthy : PyVal → Bool
  | .null => false
  | .bool b => b
  | .int n => n != 0
  | .str s => s != ""
  | .bytes bs => !bs.isEmpty
  | .list xs => !xs.isEmpty
  | .dict kvs => !kvs.isEmpty

inductive PyErr where
  | attributeError (attr : String)
  | typeError (msg : String)
  | valueError (msg : String)
  | timeoutError (msg : String)
  | httpStatusError (status : Nat)
  | providerError (msg : String)
deriving DecidableEq, Repr

def pyGet (d : PyVal) (key : String) (dflt : PyVal) : Except PyErr PyVal :=
  match d with
  | .dict kvs => .ok ((kvs.lookup key).getD dflt)
  | _ => .error (.attributeError "get")

mutual

def pyRepr : PyVal → String
  | .null => "None"
  | .bool true => "True"
  | .bool false => "False"
  | .int n => toString n
  | .str s => "'" ++ s ++ "'"
  | .bytes _ => "b''"
  | .list xs => "[" ++ pyReprJoin xs ++ "]"
  | .dict kvs => "\x7b" ++ pyReprJoinKV kvs ++ "\x7d"

def pyReprJoin : List PyVal → String
  | [] => ""
  | [x] => pyRepr x
  | x :: xs => pyRepr x ++ ", " ++ pyReprJoin xs

def pyReprJoinKV : List (String × PyVal) → String
  | [] => ""
  | [(k, v)] => "'" ++ k ++ "': " ++ pyRepr v
  | (k, v) :: ms => "'" ++ k ++ "': " ++ pyRepr v ++ ", " ++ pyReprJoinKV ms

end

/-- Python `str()` as used by the dispatch's f-strings. Exact for `None`, bools,
ints and strings (the only values the error paths format in practice); container
and bytes rendering is approximated (`repr` quoting without escapes). -/
def pyStr : PyVal → String
  | .str s => s
  | v => pyRepr v

def pyStartsWith (s pre : String) : Bool := pre.toList.isPrefixOf s.toList

/-! Base64 -/

def b64alphabet : List Char :=
  "ABCDEFGHIJKLMNOPQRSTUVWXYZabcdefghijklmnopqrstuvwxyz0123456789+/".toList

def b64char (n : Nat) : Char := b64alphabet.getD n 'A'

def b64encodeChars : List Nat → List Char
  | [] => []
  | [a] => [b64char (a / 4 % 64), b64char (a % 4 * 16), '=', '=']
  | [a, b] => [b64char (a / 4 % 64), b64char (a % 4 * 16 + b / 16), b64char (b % 16 * 4), '=']
  | a :: b :: c :: rest =>
    b64char (a / 4 % 64) :: b64char (a % 4 * 16 + b / 16) :: b64char (b % 16 * 4 + c / 64) ::
      b64char (c % 64) :: b64encodeChars rest

def b64encode (bs : List Nat) : String := String.mk (b64encodeChars bs)

def b64val (c : Char) : Option Nat :=
  if 65 ≤ c.toNat ∧ c.toNat ≤ 90 then some (c.toNat - 65)
  else if 97 ≤ c.toNat ∧ c.toNat ≤ 122 then some (c.toNat - 71)
  else if 48 ≤ c.toNat ∧ c.toNat ≤ 57 then some (c.toNat - 48 + 52)
  else if c = '+' then some 62
  else if c = '/' then some 63
  else none

def b64decodeGroups : List Char → Option (List Nat)
  | [] => some []
  | [a, b, '=', '='] =>
    match b64val a, b64val b with
    | some va, some vb => some [va * 4 + vb / 16]
    | _, _ => none
  | [a, b, c, '='] =>
    match b64val a, b64val b, b64val c with
    | some va, some vb, some vc => some [va * 4 + vb / 16, vb % 16 * 16 + vc / 4]
    | _, _, _ => none
  | a :: b :: c :: d :: rest =>
    match b64val a, b64val b, b64val c, b64val d, b64decodeGroups rest with
    | some va, some vb, some vc, some vd, some tail =>
      some ((va * 4 + vb / 16) :: (vb % 16 * 16 + vc / 4) :: (vc % 4 * 64 + vd) :: tail)
    | _, _, _, _, _ => none
  | _ => none

def b64decode (s : String) : Option (List Nat) :=
  b64decodeGroups (s.toList.filter fun c => (b64val c).isSome || c = '=')

/-! External collaborators as oracles -/

structure HttpResponse where
  status : Nat
  headers : List (String × String)
  content : List Nat

abbrev Http : Type := String → HttpResponse

abbrev Download : Type := PyVal → PyVal → PyVal → Except PyErr (List PyVal)

def httpIsSuccess (status : Nat) : Bool := 200 ≤ status && status < 300

def headersGet (headers : List (String × String)) (key dflt : String) : String :=
  (headers.lookup key).getD dflt

/-! Server-side connectors and dispatch -/

/-- `MarketConnector.history`: call the provider (in a worker thread in the
source; sequenced here) and wrap the rows; both the empty and the non-empty case
produce `{symbol, data, source: "yahoo"}`. -/
def MarketConnector.history (download : Download) (symbol range_ interval : PyVal) :
    Except PyErr PyVal := do
  let rows ← download symbol range_ interval
  .ok (.dict [("symbol", symbol), ("data", .list rows), ("source", .str "yahoo")])

/-- `DocumentConnector.fetch`: GET the uri (30s timeout elided — time is not
modelled), raise for a non-2xx status, return the base64-encoded body with the
given media type or the response's content-type header (Python `or`: a falsy
`media_type` falls back to the header). -/
def DocumentConnector.fetch (http : Http) (uri : PyVal) (media_type : PyVal) :
    Except PyErr PyVal :=
  match uri with
  | .str u =>
    let resp := http u
    if httpIsSuccess resp.status then
      .ok (.dict [("uri", uri),
        ("media_type",
          if pyTruthy media_type then media_type
          else .str (headersGet resp.headers "content-type" "application/octet-stream")),
        ("content_base64", .str (b64encode resp.content))])
    else .error (.httpStatusError resp.status)
  | _ => .error (.typeError "url must be str")

/-- `MCPServer.dispatch` (src/mcp/server.py). Field accesses follow the source's
order: `message.get("channel", "")`, then `message.get("message", {})`, then
`payload.get("action")` — a `.get` on a non-mapping raises `AttributeError`, as
does `.startswith` on a non-string channel. -/
def MCPServer.dispatch (download : Download) (http : Http) (envelope : PyVal) :
    Except PyErr PyVal := do
  let channel ← pyGet envelope "channel" (.str "")
  let payload ← pyGet envelope "message" (.dict [])
  let action ← pyGet payload "action" .null
  match channel with
  | .str ch =>
    if pyStartsWith ch "market" then
      if pyBeq action (.str "history") then do
        let params ← pyGet payload "params" (.dict [])
        let symbol ← pyGet params "symbol" (.str "AAPL")
        let range_ ← pyGet params "range" (.str "1mo")
        let interval ← pyGet params "interval" (.str "1d")
        MarketConnector.history download symbol range_ interval
      else .ok (.dict [("error", .str ("Unsupported market action: " ++ pyStr action))])
    else if pyStartsWith ch "document" || pyStartsWith ch "doc" then
      if pyBeq action (.str "fetch") then do
        let uri ← pyGet payload "uri" (.str "")
        let mt ← pyGet payload "media_type" .null
        DocumentConnector.fetch http uri mt
      else .ok (.dict [("error", .str ("Unsupported document action: " ++ pyStr action))])
    else .ok (.dict [("error", .str ("Unknown channel: " ++ ch))])
  | _ => .error (.attributeError "startswith")

/-- One iteration of `MCPServer.handler`'s receive loop: decode the raw frame
(`json.loads`), answer `invalid JSON` on `JSONDecodeError`, otherwise dispatch.
Only the decode is guarded by a try/except in the source; dispatch is not. -/
def MCPServer.handlerFrame (download : Download) (http : Http) (raw : String) :
    Except PyErr PyVal :=
  match loads raw with
  | none => .ok (.dict [("error", .str "invalid JSON")])
  | some envelope => MCPServer.dispatch download http envelope

/-- `MCPServer.handler`'s `async for` loop over the received frames: one response
per frame; an exception from a frame's processing propagates and aborts the loop
(the remaining frames are never answered). -/
def MCPServer.handler (download : Download) (http : Http) : List String → Except PyErr (List PyVal)
  | [] => .ok []
  | raw :: rest => do
    let resp ← MCPServer.handlerFrame download http raw
    let rs ← MCPServer.handler download http rest
    .ok (resp :: rs)

/-! Client side -/

structure ConnResult (α : Type) where
  result : Except PyErr α
  connectionClosed : Bool

def withConnection {α : Type} (body : Except PyErr α) : ConnResult α := ⟨body, true⟩

/-- `MCPMessageBus.request` (src/mcp/clients.py). `reply` is the wire's behaviour:
`none` when no response arrives within the timeout (then the code raises
`TimeoutError(f"MCP bus request to {channel} timed out")`), `some raw` when `raw`
is received in time; an undecodable body degrades to `{"payload": raw}`. The
enclosing `async with websockets.connect` closes the connection on every exit. -/
def MCPMessageBus.request (channel : String) (reply : Option String) : ConnResult PyVal :=
  withConnection <|
    match reply with
    | none => .error (.timeoutError ("MCP bus request to " ++ channel ++ " timed out"))
    | some raw =>
      match loads raw with
      | some v => .ok v
      | none => .ok (.dict [("payload", .str raw)])

structure MarketRequest where
  symbol : String
  range : String
  interval : String

/-- `MCPMarketClient.stream_prices`: filter the subscription's events down to
those whose `message.symbol` equals `request.symbol`, yielding the message. -/
def MCPMarketClient.streamPrices (request : MarketRequest) :
    List PyVal → Except PyErr (List PyVal)
  | [] => .ok []
  | ev :: rest => do
    let payload ← pyGet ev "message" (.dict [])
    let sym ← pyGet payload "symbol" .null
    let tail ← MCPMarketClient.streamPrices request rest
    if pyBeq sym (.str request.symbol) then .ok (payload :: tail) else .ok tail

structure FetchOutcome where
  result : Except PyErr (List Nat)
  httpGets : List String

/-- The resolution chain of `MCPDocumentClient.fetch` over the bus response
`resp`: truthy `content_base64` → `base64.b64decode`; else a bytes-typed
`content` entry; else dereference `signed_url` over HTTP; else
`ValueError("MCP fetch response missing content")`. `httpGets` records every
URL dereferenced. -/
def MCPDocumentClient.fetchResolve (http : Http) (resp : List (String × PyVal)) : FetchOutcome :=
  let content_b64 := (resp.lookup "content_base64").getD .null
  if pyTruthy content_b64 then
    match content_b64 with
    | .str s =>
      match b64decode s with
      | some bs => ⟨.ok bs, []⟩
      | none => ⟨.error (.valueError "invalid base64-encoded string"), []⟩
    | _ => ⟨.error (.typeError "argument should be a bytes-like object or ASCII string"), []⟩
  else
    match resp.lookup "content" with
    | some (.bytes bs) => ⟨.ok bs, []⟩
    | _ =>
      match resp.lookup "signed_url" with
      | some u =>
        match u with
        | .str url =>
          let r := http url
          if httpIsSuccess r.status then ⟨.ok r.content, [url]⟩
          else ⟨.error (.httpStatusError r.status), [url]⟩
        | _ => ⟨.error (.typeError "invalid url"), []⟩
      | none => ⟨.error (.valueError "MCP fetch response missing content"), []⟩

/-! Concrete oracle instances used by closed instances of the theorems below. -/

def download0 : Download := fun _ _ _ => .ok []

def http200 : Http := fun _ => ⟨200, [], []⟩

def http500 : Http := fun _ => ⟨500, [], []⟩

def eventMessage : PyVal → PyVal
  | .dict kvs => (kvs.lookup "message").getD (.dict [])
  | _ => .dict []

def payloadSymbol : PyVal → PyVal
  | .dict kvs => (kvs.lookup "symbol").getD .null
  | _ => .null

def validEnvelope (E : PyVal) : Bool :=
  pyJsonable E &&
  match E with
  | .dict kvs =>
    (match kvs.lookup "channel" with | some (.str _) => true | _ => false) &&
    (match kvs.lookup "message" with | some (.dict _) => true | _ => false) &&
    (match kvs.lookup "subscribe" with | some (.bool _) => true | none => true | _ => false) &&
    (match kvs.lookup "reply" with | some (.bool _) => true | none => true | _ => false)
  | _ => false

def envelope0 : PyVal :=
  .dict [("channel", .str "market"),
    ("message", .dict [("action", .str "history"),
                       ("params", .dict [("symbol", .str "AAPL"), ("range", .str "1mo")])]),
    ("reply", .bool true)]

/-! Soundness of `pyBeq`, giving decidable equality of `PyVal`. -/

theorem pyBeqList_iff_of (xs : List PyVal)
    (IH : ∀ x ∈ xs, ∀ b, pyBeq x b = true ↔ x = b) :
    ∀ ys, pyBeqList xs ys = true ↔ xs = ys := by
  induction xs with
  | nil => intro ys; cases ys <;> simp [pyBeqList]
  | cons x xs ihx =>
    intro ys
    cases ys with
    | nil => simp [pyBeqList]
    | cons y ys =>
      simp [pyBeqList, IH x (by simp), ihx (fun z hz b => IH z (by simp [hz]) b)]

theorem pyBeqMembers_iff_of (kvs : List (String × PyVal))
    (IH : ∀ kv ∈ kvs, ∀ b, pyBeq kv.2 b = true ↔ kv.2 = b) :
    ∀ ms, pyBeqMembers kvs ms = true ↔ kvs = ms := by
  induction kvs with
  | nil => intro ms; cases ms <;> simp [pyBeqMembers]
  | cons kv kvs ihx =>
    intro ms
    obtain ⟨k, v⟩ := kv
    cases ms with
    | nil => simp [pyBeqMembers]
    | cons m ms =>
      obtain ⟨k2, v2⟩ := m
      simp [pyBeqMembers, IH (k, v) (by simp), Prod.ext_iff,
        ihx (fun z hz b => IH z (by simp [hz]) b), and_assoc]

theorem pyBeq_iff_aux : ∀ n : Nat, ∀ a : PyVal, sizeOf a ≤ n → ∀ b, pyBeq a b = true ↔ a = b := by
  intro n
  induction n with
  | zero => intro a ha; cases a <;> simp at ha
  | succ n ih =>
    intro a ha b
    cases a with
    | null => cases b <;> simp [pyBeq]
    | bool x => cases b <;> simp [pyBeq]
    | int x => cases b <;> simp [pyBeq]
    | str x => cases b <;> simp [pyBeq]
    | bytes x => cases b <;> simp [pyBeq]
    | list xs =>
      have hmem : ∀ x ∈ xs, ∀ b, pyBeq x b = true ↔ x = b := by
        intro x hx b
        refine ih x ?_ b
        have h1 : sizeOf x < sizeOf xs := List.sizeOf_lt_of_mem hx
        have h2 : sizeOf (PyVal.list xs) = 1 + sizeOf xs := by simp
        omega
      cases b <;> simp [pyBeq, pyBeqList_iff_of xs hmem]
    | dict kvs =>
      have hmem : ∀ kv ∈ kvs, ∀ b, pyBeq kv.2 b = true ↔ kv.2 = b := by
        intro kv hkv b
        refine ih kv.2 ?_ b
        have h1 : sizeOf kv < sizeOf kvs := List.sizeOf_lt_of_mem hkv
        have h2 : sizeOf (PyVal.dict kvs) = 1 + sizeOf kvs := by simp
        obtain ⟨k, v⟩ := kv
        have h3 : sizeOf (k, v) = 1 + sizeOf k + sizeOf v := by simp
        simp only at h1 ⊢
        omega
      cases b <;> simp [pyBeq, pyBeqMembers_iff_of kvs hmem]

theorem pyBeq_iff (a b : PyVal) : pyBeq a b = true ↔ a = b :=
  pyBeq_iff_aux (sizeOf a) a (le_refl _) b

instance : DecidableEq PyVal := fun a b =>
  decidable_of_iff (pyBeq a b = true) (pyBeq_iff a b)

/-! Codec lemmas: whitespace and characters -/

theorem char_eq_of_toNat_eq {c d : Char} (h : c.toNat = d.toNat) : c = d := by
  have h1 := Char.ofNat_toNat c
  have h2 := Char.ofNat_toNat d
  rw [← h1, ← h2, h]

theorem char_ne_of_toNat_ne {c d : Char} (h : c.toNat ≠ d.toNat) : c ≠ d :=
  fun e => h (congrArg Char.toNat e)

theorem skipWs_idem (l : List Char) : skipWs (skipWs l) = skipWs l := by
  induction l with
  | nil => rfl
  | cons c l ih =>
    by_cases h : isWsChar c = true
    · simp [skipWs, h, ih]
    · simp [skipWs, h]

theorem skipWs_not_ws {c : Char} (h : isWsChar c = false) (l : List Char) :
    skipWs (c :: l) = c :: l := by
  simp [skipWs, h]

theorem skipWs_sp (l : List Char) : skipWs (' ' :: l) = skipWs l := by
  simp [skipWs, isWsChar]

theorem parseVal_skipWs (f : Nat) (l : List Char) : parseVal f l = parseVal f (skipWs l) := by
  cases f with
  | zero => rfl
  | succ f => simp only [parseVal, skipWs_idem]

theorem parseVal_sp (f : Nat) (l : List Char) : parseVal f (' ' :: l) = parseVal f l := by
  rw [parseVal_skipWs, skipWs_sp, ← parseVal_skipWs]

theorem isDigitC_spec {c : Char} (h : isDigitC c = true) : 48 ≤ c.toNat ∧ c.toNat ≤ 57 := by
  simp [isDigitC] at h
  exact h

theorem digitChar_isDigit {d : Nat} (h : d < 10) :
    isDigitC (digitChar d) = true ∧ digitVal (digitChar d) = d := by
  interval_cases d <;> exact ⟨rfl, rfl⟩

theorem digit_not_ws {c : Char} (h : isDigitC c = true) : isWsChar c = false := by
  obtain ⟨h1, h2⟩ := isDigitC_spec h
  have e1 : c ≠ ' ' := char_ne_of_toNat_ne (by simp; omega)
  have e2 : c ≠ '\t' := char_ne_of_toNat_ne (by simp; omega)
  have e3 : c ≠ '\n' := char_ne_of_toNat_ne (by simp; omega)
  have e4 : c ≠ '\r' := char_ne_of_toNat_ne (by simp; omega)
  simp [isWsChar, e1, e2, e3, e4]

/-! Codec lemmas: decimal numbers -/

theorem natToDecAux_acc (n : Nat) : ∀ acc, natToDecAux n acc = natToDecAux n [] ++ acc := by
  induction n using Nat.strong_induction_on with
  | _ n ih =>
    intro acc
    cases n with
    | zero => simp [natToDecAux]
    | succ m =>
      rw [natToDecAux, natToDecAux]
      have hlt : (m + 1) / 10 < m + 1 := Nat.div_lt_self (by omega) (by omega)
      rw [ih _ hlt, ih _ hlt (digitChar ((m + 1) % 10) :: [])]
      simp

theorem natToDecAux_digits (n : Nat) : ∀ c ∈ natToDecAux n [], isDigitC c = true := by
  induction n using Nat.strong_induction_on with
  | _ n ih =>
    cases n with
    | zero => simp [natToDecAux]
    | succ m =>
      rw [natToDecAux, natToDecAux_acc]
      intro c hc
      rcases List.mem_append.mp hc with h | h
      · exact ih _ (Nat.div_lt_self (by omega) (by omega)) c h
      · simp at h
        subst h
        exact (digitChar_isDigit (Nat.mod_lt _ (by omega))).1

theorem natToDecAux_head (n : Nat) (hn : n ≠ 0) :
    ∃ c cs, natToDecAux n [] = c :: cs ∧ isDigitC c = true ∧ c ≠ '0' := by
  induction n using Nat.strong_induction_on with
  | _ n ih =>
    cases n with
    | zero => omega
    | succ m =>
      rw [natToDecAux, natToDecAux_acc]
      by_cases h : (m + 1) / 10 = 0
      · rw [h]
        refine ⟨digitChar ((m + 1) % 10), [], by simp [natToDecAux], ?_, ?_⟩
        · exact (digitChar_isDigit (Nat.mod_lt _ (by omega))).1
        · have h10 : m + 1 < 10 := by omega
          have hmod : (m + 1) % 10 = m + 1 := Nat.mod_eq_of_lt h10
          rw [hmod]
          apply char_ne_of_toNat_ne
          have hdc : (digitChar (m + 1)).toNat = 48 + (m + 1) := by
            have hm9 : m < 9 := by omega
            interval_cases m <;> rfl
          rw [hdc, show ('0').toNat = 48 from rfl]
          omega
      · obtain ⟨c, cs, heq, hd, hz⟩ := ih _ (Nat.div_lt_self (by omega) (by omega)) h
        exact ⟨c, cs ++ [digitChar ((m + 1) % 10)], by rw [heq]; simp, hd, hz⟩

theorem parseDigits_append (ds : List Char) (hds : ∀ c ∈ ds, isDigitC c = true) :
    ∀ rest, startsWithDigit rest = false → ∀ acc,
      parseDigits (ds ++ rest) acc = (List.foldl decStep acc ds, rest) := by
  induction ds with
  | nil =>
    intro rest hrest acc
    cases rest with
    | nil => simp [parseDigits]
    | cons c cs =>
      simp [startsWithDigit] at hrest
      simp [parseDigits, hrest]
  | cons d ds ih =>
    intro rest hrest acc
    have hd := hds d (by simp)
    simp [parseDigits, hd, decStep]
    exact ih (fun c hc => hds c (by simp [hc])) rest hrest _

theorem foldl_natToDecAux (n : Nat) :
    ∀ a, List.foldl decStep a (natToDecAux n []) =
      a * 10 ^ (natToDecAux n []).length + n := by
  induction n using Nat.strong_induction_on with
  | _ n ih =>
    intro a
    cases n with
    | zero => simp [natToDecAux]
    | succ m =>
      rw [natToDecAux, natToDecAux_acc]
      have hlt : (m + 1) / 10 < m + 1 := Nat.div_lt_self (by omega) (by omega)
      rw [List.foldl_append, ih _ hlt]
      have hdm := digitChar_isDigit (d := (m + 1) % 10) (Nat.mod_lt _ (by omega))
      simp only [List.foldl_cons, List.foldl_nil, decStep, hdm.2, List.length_append,
        List.length_cons, List.length_nil]
      have hpow : 10 ^ ((natToDecAux ((m + 1) / 10) []).length + (0 + 1)) =
          10 ^ (natToDecAux ((m + 1) / 10) []).length * 10 := by
        rw [pow_succ]
      rw [hpow]
      have := Nat.div_add_mod (m + 1) 10
      ring_nf
      omega

theorem parseNat1_natToDec (n : Nat) (rest : List Char) (hrest : startsWithDigit rest = false) :
    parseNat1 (natToDec n ++ rest) = some (n, rest) := by
  by_cases hn : n = 0
  · subst hn
    show parseNat1 ('0' :: rest) = some (0, rest)
    have : parseDigits rest 0 = (0, rest) := by
      cases rest with
      | nil => simp [parseDigits]
      | cons c cs =>
        simp [startsWithDigit] at hrest
        simp [parseDigits, hrest]
    simp [parseNat1, isDigitC, hrest, digitVal, this]
  · obtain ⟨c, cs, heq, hdig, hnz⟩ := natToDecAux_head n hn
    have hall := natToDecAux_digits n
    rw [heq] at hall
    rw [natToDec, if_neg hn, heq]
    show parseNat1 (c :: (cs ++ rest)) = some (n, rest)
    have hcs : ∀ x ∈ cs, isDigitC x = true := fun x hx => hall x (by simp [hx])
    rw [parseNat1, if_pos hdig, if_neg (by simp [hnz])]
    rw [parseDigits_append cs hcs rest hrest]
    have hfold : List.foldl decStep (digitVal c) cs = n := by
      have h0 : List.foldl decStep 0 (c :: cs) = n := by
        rw [← heq, foldl_natToDecAux]
        simp
      simpa [decStep] using h0
    rw [hfold]

/-! parseVal branch lemmas -/

theorem pv_null (f : Nat) (r : List Char) :
    parseVal (f + 1) ('n' :: 'u' :: 'l' :: 'l' :: r) = some (.null, r) := rfl

theorem pv_true (f : Nat) (r : List Char) :
    parseVal (f + 1) ('t' :: 'r' :: 'u' :: 'e' :: r) = some (.bool true, r) := rfl

theorem pv_false (f : Nat) (r : List Char) :
    parseVal (f + 1) ('f' :: 'a' :: 'l' :: 's' :: 'e' :: r) = some (.bool false, r) := rfl

theorem pv_quote (f : Nat) (r : List Char) :
    parseVal (f + 1) ('"' :: r) =
      (parseStrChars (f + 1) r).map fun (cs, r2) => (.str (String.mk cs), r2) := rfl

theorem pv_neg (f : Nat) (r : List Char) :
    parseVal (f + 1) ('-' :: r) =
      (parseNat1 r).map fun (m, r2) => (.int (-(m : Int)), r2) := rfl

theorem pv_lbrack (f : Nat) (r : List Char) :
    parseVal (f + 1) ('[' :: r) =
      match skipWs r with
      | [] => none
      | c2 :: r2 =>
        if c2 = ']' then some (.list [], r2)
        else (parseElems f (c2 :: r2)).map fun (vs, r3) => (.list vs, r3) := rfl

theorem pv_lbrace (f : Nat) (r : List Char) :
    parseVal (f + 1) ('{' :: r) =
      match skipWs r with
      | [] => none
      | c2 :: r2 =>
        if c2 = '}' then some (.dict [], r2)
        else (parseMembers f (c2 :: r2)).map fun (ms, r3) => (.dict ms, r3) := rfl

theorem pv_digit (f : Nat) {c : Char} (h : isDigitC c = true) (l : List Char) :
    parseVal (f + 1) (c :: l) =
      (parseNat1 (c :: l)).map fun (m, r) => (.int (m : Int), r) := by
  obtain ⟨h1, h2⟩ := isDigitC_spec h
  have e1 : c ≠ 'n' := char_ne_of_toNat_ne (by simp; omega)
  have e2 : c ≠ 't' := char_ne_of_toNat_ne (by simp; omega)
  have e3 : c ≠ 'f' := char_ne_of_toNat_ne (by simp; omega)
  have e4 : c ≠ '"' := char_ne_of_toNat_ne (by simp; omega)
  have e5 : c ≠ '[' := char_ne_of_toNat_ne (by simp; omega)
  have e6 : c ≠ '{' := char_ne_of_toNat_ne (by simp; omega)
  have e7 : c ≠ '-' := char_ne_of_toNat_ne (by simp; omega)
  simp only [parseVal, skipWs_not_ws (digit_not_ws h)]
  simp [e1, e2, e3, e4, e5, e6, e7, h]

theorem intToDec_head (n : Int) : ∃ c cs, intToDec n = c :: cs ∧ (c = '-' ∨ isDigitC c = true) := by
  rw [intToDec]
  by_cases hn : n < 0
  · rw [if_pos hn]
    exact ⟨'-', _, rfl, Or.inl rfl⟩
  · rw [if_neg hn, natToDec]
    by_cases hz : n.toNat = 0
    · rw [if_pos hz]
      exact ⟨'0', [], rfl, Or.inr rfl⟩
    · rw [if_neg hz]
      obtain ⟨c, cs, heq, hd, _⟩ := natToDecAux_head n.toNat hz
      exact ⟨c, cs, heq, Or.inr hd⟩

theorem pv_int (f : Nat) (n : Int) (rest : List Char) (hrest : startsWithDigit rest = false) :
    parseVal (f + 1) (intToDec n ++ rest) = some (.int n, rest) := by
  rw [intToDec]
  by_cases hn : n < 0
  · rw [if_pos hn]
    show parseVal (f + 1) ('-' :: (natToDec n.natAbs ++ rest)) = some (.int n, rest)
    rw [pv_neg, parseNat1_natToDec _ _ hrest]
    have hval : -((n.natAbs : Nat) : Int) = n := by omega
    simp only [Option.map_some]
    show some (PyVal.int (-((n.natAbs : Nat) : Int)), rest) = some (PyVal.int n, rest)
    rw [hval]
  · rw [if_neg hn]
    have hd : isDigitC (natToDec n.toNat).head! = true := by
      rw [natToDec]
      by_cases hz : n.toNat = 0
      · rw [if_pos hz]; rfl
      · rw [if_neg hz]
        obtain ⟨c, cs, heq, hdg, _⟩ := natToDecAux_head n.toNat hz
        rw [heq]
        exact hdg
    obtain ⟨c, cs, heq⟩ : ∃ c cs, natToDec n.toNat = c :: cs := by
      rw [natToDec]
      by_cases hz : n.toNat = 0
      · rw [if_pos hz]; exact ⟨'0', [], rfl⟩
      · rw [if_neg hz]
        obtain ⟨c, cs, heq, _, _⟩ := natToDecAux_head n.toNat hz
        exact ⟨c, cs, heq⟩
    rw [heq] at hd ⊢
    simp only [List.head!] at hd
    rw [List.cons_append, pv_digit f hd]
    have hp := parseNat1_natToDec n.toNat rest hrest
    rw [heq, List.cons_append] at hp
    rw [hp]
    have hval : ((n.toNat : Nat) : Int) = n := by omega
    simp only [Option.map_some]
    show some (PyVal.int ((n.toNat : Nat) : Int), rest) = some (PyVal.int n, rest)
    rw [hval]

/-! String escaping round trip -/

theorem hexVal_hexDigit {d : Nat} (h : d < 16) : hexVal (hexDigit d) = some d := by
  interval_cases d <;> rfl

theorem parseStr_escList :
    ∀ cs : List Char, ∀ f rest, cs.length < f →
      parseStrChars f (escList cs ++ '"' :: rest) = some (cs, rest) := by
  intro cs
  induction cs with
  | nil =>
    intro f rest hf
    cases f with
    | zero => omega
    | succ f => simp [escList, parseStrChars]
  | cons c cs ih =>
    intro f rest hf
    cases f with
    | zero => omega
    | succ f =>
      have hf2 : cs.length < f := by simp at hf; omega
      rw [escList, List.append_assoc]
      rw [escChar]
      split_ifs with h1 h2 h3 h4 h5 h6 h7 h8
      · subst h1
        simp [parseStrChars, unescape, ih f rest hf2]
      · subst h2
        simp [parseStrChars, unescape, ih f rest hf2]
      · subst h3
        simp [parseStrChars, unescape, ih f rest hf2]
      · subst h4
        simp [parseStrChars, unescape, ih f rest hf2]
      · subst h5
        simp [parseStrChars, unescape, ih f rest hf2]
      · have hc : c = Char.ofNat 8 := char_eq_of_toNat_eq (by rw [h6]; rfl)
        simp [parseStrChars, unescape, ih f rest hf2, hc]
      · have hc : c = Char.ofNat 12 := char_eq_of_toNat_eq (by rw [h7]; rfl)
        simp [parseStrChars, unescape, ih f rest hf2, hc]
      · have hd1 : c.toNat / 16 < 16 := by omega
        have hd2 : c.toNat % 16 < 16 := by omega
        have hcode : ((0 * 16 + 0) * 16 + c.toNat / 16) * 16 + c.toNat % 16 = c.toNat := by omega
        have hcode2 : (0 * 16 + c.toNat / 16) * 16 + c.toNat % 16 = c.toNat := by omega
        have hcode3 : (c.toNat / 16) * 16 + c.toNat % 16 = c.toNat := by omega
        have h0 : hexVal '0' = some 0 := rfl
        simp [parseStrChars, h0, hexVal_hexDigit hd1, hexVal_hexDigit hd2, ih f rest hf2,
          hcode, hcode2, hcode3, Char.ofNat_toNat]
      · have h32 : ¬ (c.toNat < 32) := h8
        simp only [List.cons_append, List.nil_append, parseStrChars, if_neg h1, if_neg h2,
          if_neg h32]
        rw [ih f rest hf2]
        rfl

/-! Serializer head shape and parser helpers -/

theorem string_mk_toList (s : String) : String.mk s.toList = s := rfl

theorem valHead_cases {c : Char} (h : valHead c = true) :
    c = 'n' ∨ c = 't' ∨ c = 'f' ∨ c = '"' ∨ c = '[' ∨ c = '{' ∨ c = '-' ∨ isDigitC c = true := by
  simp only [valHead, Bool.or_eq_true, decide_eq_true_eq] at h
  tauto

theorem valHead_not_ws {c : Char} (h : valHead c = true) : isWsChar c = false := by
  rcases valHead_cases h with h | h | h | h | h | h | h | h
  · subst h; rfl
  · subst h; rfl
  · subst h; rfl
  · subst h; rfl
  · subst h; rfl
  · subst h; rfl
  · subst h; rfl
  · exact digit_not_ws h

theorem valHead_ne_rbrack {c : Char} (h : valHead c = true) : c ≠ ']' := by
  rcases valHead_cases h with h | h | h | h | h | h | h | h
  · subst h; decide
  · subst h; decide
  · subst h; decide
  · subst h; decide
  · subst h; decide
  · subst h; decide
  · subst h; decide
  · obtain ⟨h1, h2⟩ := isDigitC_spec h
    exact char_ne_of_toNat_ne (by simp; omega)

theorem valHead_ne_rbrace {c : Char} (h : valHead c = true) : c ≠ '}' := by
  rcases valHead_cases h with h | h | h | h | h | h | h | h
  · subst h; decide
  · subst h; decide
  · subst h; decide
  · subst h; decide
  · subst h; decide
  · subst h; decide
  · subst h; decide
  · obtain ⟨h1, h2⟩ := isDigitC_spec h
    exact char_ne_of_toNat_ne (by simp; omega)

theorem serCore_head (v : PyVal) (hv : pyJsonable v = true) :
    ∃ c cs, serCore v = c :: cs ∧ valHead c = true := by
  cases v with
  | null => exact ⟨'n', _, rfl, rfl⟩
  | bool b =>
    cases b with
    | false => exact ⟨'f', _, rfl, rfl⟩
    | true => exact ⟨'t', _, rfl, rfl⟩
  | int n =>
    obtain ⟨c, cs, heq, hd⟩ := intToDec_head n
    refine ⟨c, cs, heq, ?_⟩
    rcases hd with h | h
    · subst h; rfl
    · simp [valHead, h]
  | str s => exact ⟨'"', _, rfl, rfl⟩
  | bytes bs => simp [pyJsonable] at hv
  | list xs => exact ⟨'[', _, rfl, rfl⟩
  | dict kvs => exact ⟨'{', _, rfl, rfl⟩

theorem parseElems_skipWs (f : Nat) (l : List Char) :
    parseElems f l = parseElems f (skipWs l) := by
  cases f with
  | zero => rfl
  | succ f => simp only [parseElems, parseVal_skipWs f l, parseVal_skipWs f (skipWs l), skipWs_idem]

theorem parseElems_sp (f : Nat) (l : List Char) : parseElems f (' ' :: l) = parseElems f l := by
  rw [parseElems_skipWs, skipWs_sp, ← parseElems_skipWs]

theorem parseMembers_skipWs (f : Nat) (l : List Char) :
    parseMembers f l = parseMembers f (skipWs l) := by
  cases f with
  | zero => rfl
  | succ f => simp only [parseMembers, skipWs_idem]

theorem parseMembers_sp (f : Nat) (l : List Char) :
    parseMembers f (' ' :: l) = parseMembers f l := by
  rw [parseMembers_skipWs, skipWs_sp, ← parseMembers_skipWs]

theorem nsize_pos (v : PyVal) : 1 ≤ nsize v := by
  cases v <;> simp [nsize]

theorem parseElems_ser (xs : List PyVal) (IH : ∀ x ∈ xs, ParseSerOk x) :
    ∀ f rest, xs ≠ [] → pyJsonableList xs = true → nsizeElems xs ≤ f →
      startsWithDigit rest = false →
      parseElems f (serElemsList xs ++ ']' :: rest) = some (xs, rest) := by
  induction xs with
  | nil => intro f rest hne; exact absurd rfl hne
  | cons x xs ihx =>
    intro f rest _ hjson hfuel hrest
    simp only [pyJsonableList, Bool.and_eq_true] at hjson
    obtain ⟨hjx, hjxs⟩ := hjson
    have hz0 : nsizeElems ([] : List PyVal) = 0 := rfl
    have h1 : 1 + nsize x + nsizeElems xs ≤ f := by
      have he : nsizeElems (x :: xs) = 1 + nsize x + nsizeElems xs := rfl
      omega
    obtain ⟨f', rfl⟩ : ∃ f', f = f' + 1 := ⟨f - 1, by omega⟩
    cases xs with
    | nil =>
      rw [show serElemsList [x] = serCore x from rfl]
      simp only [parseElems]
      rw [IH x (by simp) f' (']' :: rest) hjx (by omega) rfl]
      rfl
    | cons y ys =>
      rw [show serElemsList (x :: y :: ys) = serCore x ++ ',' :: ' ' :: serElemsList (y :: ys)
          from rfl]
      simp only [List.append_assoc, List.cons_append]
      simp only [parseElems]
      rw [IH x (by simp) f' (',' :: ' ' :: (serElemsList (y :: ys) ++ ']' :: rest)) hjx
        (by omega) rfl]
      show Option.map (fun p => (x :: p.1, p.2))
          (parseElems f' (' ' :: (serElemsList (y :: ys) ++ ']' :: rest))) =
        some (x :: y :: ys, rest)
      rw [parseElems_sp]
      rw [ihx (fun z hz => IH z (by simp [hz])) f' rest (by simp) hjxs
        (by have he : nsizeElems (y :: ys) = 1 + nsize y + nsizeElems ys := rfl; omega) hrest]
      rfl

theorem parseMembers_ser (kvs : List (String × PyVal)) (IH : ∀ kv ∈ kvs, ParseSerOk kv.2) :
    ∀ f rest, kvs ≠ [] → pyJsonableMembers kvs = true → nsizeMembers kvs ≤ f →
      startsWithDigit rest = false →
      parseMembers f (serMembersList kvs ++ '}' :: rest) = some (kvs, rest) := by
  induction kvs with
  | nil => intro f rest hne; exact absurd rfl hne
  | cons kv kvs ihm =>
    obtain ⟨k, v⟩ := kv
    intro f rest _ hjson hfuel hrest
    simp only [pyJsonableMembers, Bool.and_eq_true] at hjson
    obtain ⟨hjv, hjms⟩ := hjson
    have h1 : 1 + k.toList.length + nsize v + nsizeMembers kvs ≤ f := by
      have he : nsizeMembers ((k, v) :: kvs) = 1 + k.toList.length + nsize v + nsizeMembers kvs :=
        rfl
      omega
    obtain ⟨f', rfl⟩ : ∃ f', f = f' + 1 := ⟨f - 1, by omega⟩
    have hklen : k.toList.length < f' + 1 := by omega
    cases kvs with
    | nil =>
      rw [show serMembersList [(k, v)] = encStr k ++ ':' :: ' ' :: serCore v from rfl, encStr]
      simp only [List.append_assoc, List.cons_append, List.nil_append]
      show (match parseStrChars (f' + 1)
          (escList k.toList ++ '"' :: ':' :: ' ' :: (serCore v ++ '}' :: rest)) with
        | none => none
        | some (kcs, r2) =>
          match skipWs r2 with
          | ':' :: r3 =>
            match parseVal f' r3 with
            | none => none
            | some (v', r4) =>
              match skipWs r4 with
              | ',' :: r5 => (parseMembers f' r5).map fun p => ((String.mk kcs, v') :: p.1, p.2)
              | '}' :: r5 => some ([(String.mk kcs, v')], r5)
              | _ => none
          | _ => none) = some ([(k, v)], rest)
      rw [parseStr_escList k.toList (f' + 1) _ hklen]
      show (match parseVal f' (' ' :: (serCore v ++ '}' :: rest)) with
        | none => none
        | some (v', r4) =>
          match skipWs r4 with
          | ',' :: r5 => (parseMembers f' r5).map fun p => ((String.mk k.toList, v') :: p.1, p.2)
          | '}' :: r5 => some ([(String.mk k.toList, v')], r5)
          | _ => none) = some ([(k, v)], rest)
      rw [parseVal_sp, IH (k, v) (by simp) f' ('}' :: rest) hjv
        (by show nsize v ≤ f'; omega) rfl]
      rfl
    | cons kv2 ms =>
      obtain ⟨k2, v2⟩ := kv2
      rw [show serMembersList ((k, v) :: (k2, v2) :: ms) =
          encStr k ++ ':' :: ' ' :: (serCore v ++ ',' :: ' ' :: serMembersList ((k2, v2) :: ms))
          from rfl, encStr]
      simp only [List.append_assoc, List.cons_append, List.nil_append]
      show (match parseStrChars (f' + 1)
          (escList k.toList ++ '"' :: ':' :: ' ' ::
            (serCore v ++ ',' :: ' ' :: (serMembersList ((k2, v2) :: ms) ++ '}' :: rest))) with
        | none => none
        | some (kcs, r2) =>
          match skipWs r2 with
          | ':' :: r3 =>
            match parseVal f' r3 with
            | none => none
            | some (v', r4) =>
              match skipWs r4 with
              | ',' :: r5 => (parseMembers f' r5).map fun p => ((String.mk kcs, v') :: p.1, p.2)
              | '}' :: r5 => some ([(String.mk kcs, v')], r5)
              | _ => none
          | _ => none) = some ((k, v) :: (k2, v2) :: ms, rest)
      rw [parseStr_escList k.toList (f' + 1) _ hklen]
      show (match parseVal f'
          (' ' :: (serCore v ++ ',' :: ' ' :: (serMembersList ((k2, v2) :: ms) ++ '}' :: rest))) with
        | none => none
        | some (v', r4) =>
          match skipWs r4 with
          | ',' :: r5 => (parseMembers f' r5).map fun p => ((String.mk k.toList, v') :: p.1, p.2)
          | '}' :: r5 => some ([(String.mk k.toList, v')], r5)
          | _ => none) = some ((k, v) :: (k2, v2) :: ms, rest)
      rw [parseVal_sp, IH (k, v) (by simp) f'
        (',' :: ' ' :: (serMembersList ((k2, v2) :: ms) ++ '}' :: rest)) hjv
        (by show nsize v ≤ f'; omega) rfl]
      show Option.map (fun p => ((String.mk k.toList, v) :: p.1, p.2))
          (parseMembers f' (' ' :: (serMembersList ((k2, v2) :: ms) ++ '}' :: rest))) =
        some ((k, v) :: (k2, v2) :: ms, rest)
      rw [parseMembers_sp]
      rw [ihm (fun z hz => IH z (by simp [hz])) f' rest (by simp) hjms
        (by have he : nsizeMembers ((k2, v2) :: ms) =
              1 + k2.toList.length + nsize v2 + nsizeMembers ms := rfl
            omega) hrest]
      rfl

theorem parseVal_serCore : ∀ N : Nat, ∀ v : PyVal, sizeOf v ≤ N → ParseSerOk v := by
  intro N
  induction N with
  | zero =>
    intro v hv
    cases v <;> simp at hv
  | succ N ih =>
    intro v hv f rest hjson hfuel hrest
    cases v with
    | null =>
      obtain ⟨f', rfl⟩ : ∃ f', f = f' + 1 :=
        ⟨f - 1, by have h : nsize PyVal.null = 1 := rfl; omega⟩
      exact pv_null f' rest
    | bool b =>
      obtain ⟨f', rfl⟩ : ∃ f', f = f' + 1 :=
        ⟨f - 1, by have h : nsize (PyVal.bool b) = 1 := rfl; omega⟩
      cases b with
      | false => exact pv_false f' rest
      | true => exact pv_true f' rest
    | int n =>
      obtain ⟨f', rfl⟩ : ∃ f', f = f' + 1 :=
        ⟨f - 1, by have h : nsize (PyVal.int n) = 1 := rfl; omega⟩
      exact pv_int f' n rest hrest
    | str s =>
      obtain ⟨f', rfl⟩ : ∃ f', f = f' + 1 :=
        ⟨f - 1, by have h : nsize (PyVal.str s) = 1 + s.toList.length := rfl; omega⟩
      have hlen : s.toList.length < f' + 1 := by
        have h : nsize (PyVal.str s) = 1 + s.toList.length := rfl
        omega
      rw [show serCore (PyVal.str s) ++ rest = '"' :: ((escList s.toList ++ ['"']) ++ rest)
          from rfl]
      rw [show (escList s.toList ++ ['"']) ++ rest = escList s.toList ++ '"' :: rest by simp]
      rw [pv_quote, parseStr_escList s.toList (f' + 1) rest hlen]
      rfl
    | bytes bs => simp [pyJsonable] at hjson
    | list xs =>
      obtain ⟨f', rfl⟩ : ∃ f', f = f' + 1 :=
        ⟨f - 1, by
          have h : nsize (PyVal.list xs) = 1 + nsizeElems xs := rfl
          omega⟩
      cases xs with
      | nil => exact rfl
      | cons x xs =>
        have hjsonxs : pyJsonableList (x :: xs) = true := by
          simpa [pyJsonable] using hjson
        have hjx : pyJsonable x = true := by
          simp only [pyJsonableList, Bool.and_eq_true] at hjsonxs
          exact hjsonxs.1
        have hmemIH : ∀ z ∈ x :: xs, ParseSerOk z := by
          intro z hz
          refine ih z ?_
          have h1 : sizeOf z < sizeOf (x :: xs) := List.sizeOf_lt_of_mem hz
          have h2 : sizeOf (PyVal.list (x :: xs)) = 1 + sizeOf (x :: xs) := by simp
          omega
        obtain ⟨c, cs, hserx, hvh⟩ := serCore_head x hjx
        obtain ⟨t, ht⟩ : ∃ t, serElemsList (x :: xs) = serCore x ++ t := by
          cases xs with
          | nil => exact ⟨[], by simp [serElemsList]⟩
          | cons y ys => exact ⟨_, rfl⟩
        rw [show serCore (PyVal.list (x :: xs)) ++ rest =
            '[' :: ((serElemsList (x :: xs) ++ [']']) ++ rest) from rfl]
        rw [show (serElemsList (x :: xs) ++ [']']) ++ rest =
            serElemsList (x :: xs) ++ ']' :: rest by simp]
        rw [pv_lbrack, ht, hserx]
        simp only [List.cons_append, List.append_assoc]
        rw [skipWs_not_ws (valHead_not_ws hvh)]
        have hback : c :: (cs ++ (t ++ ']' :: rest)) = serElemsList (x :: xs) ++ ']' :: rest := by
          rw [ht, hserx]
          simp
        show (if c = ']' then some (PyVal.list [], cs ++ (t ++ ']' :: rest))
            else (parseElems f' (c :: (cs ++ (t ++ ']' :: rest)))).map
              fun p => (PyVal.list p.1, p.2)) =
          some (PyVal.list (x :: xs), rest)
        rw [if_neg (valHead_ne_rbrack hvh), hback,
          parseElems_ser (x :: xs) hmemIH f' rest (by simp) hjsonxs
            (by have h : nsize (PyVal.list (x :: xs)) = 1 + nsizeElems (x :: xs) := rfl
                omega) hrest]
        rfl
    | dict kvs =>
      obtain ⟨f', rfl⟩ : ∃ f', f = f' + 1 :=
        ⟨f - 1, by
          have h : nsize (PyVal.dict kvs) = 1 + nsizeMembers kvs := rfl
          omega⟩
      cases kvs with
      | nil => exact rfl
      | cons kv kvs =>
        obtain ⟨k, v⟩ := kv
        have hjsonms : pyJsonableMembers ((k, v) :: kvs) = true := by
          have h : pyJsonable (PyVal.dict ((k, v) :: kvs)) =
              (noDupStr (((k, v) :: kvs).map Prod.fst) && pyJsonableMembers ((k, v) :: kvs)) :=
            rfl
          rw [h, Bool.and_eq_true] at hjson
          exact hjson.2
        have hmemIH : ∀ z ∈ (k, v) :: kvs, ParseSerOk z.2 := by
          intro z hz
          refine ih z.2 ?_
          have h1 : sizeOf z < sizeOf ((k, v) :: kvs) := List.sizeOf_lt_of_mem hz
          have h2 : sizeOf (PyVal.dict ((k, v) :: kvs)) = 1 + sizeOf ((k, v) :: kvs) := by simp
          obtain ⟨k2, v2⟩ := z
          have h3 : sizeOf ((k2, v2) : String × PyVal) = 1 + sizeOf k2 + sizeOf v2 := by simp
          simp only at h1 ⊢
          omega
        rw [show serCore (PyVal.dict ((k, v) :: kvs)) ++ rest =
            '{' :: ((serMembersList ((k, v) :: kvs) ++ ['}']) ++ rest) from rfl]
        rw [show (serMembersList ((k, v) :: kvs) ++ ['}']) ++ rest =
            serMembersList ((k, v) :: kvs) ++ '}' :: rest by simp]
        rw [pv_lbrace]
        obtain ⟨t, ht⟩ : ∃ t, serMembersList ((k, v) :: kvs) =
            '"' :: (escList k.toList ++ t) := by
          cases kvs with
          | nil =>
            refine ⟨'"' :: ':' :: ' ' :: serCore v, ?_⟩
            rw [show serMembersList [(k, v)] = encStr k ++ ':' :: ' ' :: serCore v from rfl,
              encStr]
            simp
          | cons kv2 ms =>
            obtain ⟨k2, v2⟩ := kv2
            refine ⟨'"' :: ':' :: ' ' ::
              (serCore v ++ ',' :: ' ' :: serMembersList ((k2, v2) :: ms)), ?_⟩
            rw [show serMembersList ((k, v) :: (k2, v2) :: ms) =
                encStr k ++ ':' :: ' ' ::
                  (serCore v ++ ',' :: ' ' :: serMembersList ((k2, v2) :: ms)) from rfl, encStr]
            simp
        rw [ht]
        simp only [List.cons_append, List.append_assoc]
        rw [skipWs_not_ws (c := '"') (by decide)]
        have hback : '"' :: (escList k.toList ++ (t ++ '}' :: rest)) =
            serMembersList ((k, v) :: kvs) ++ '}' :: rest := by
          rw [ht]
          simp
        show (if ('"' : Char) = '}' then some (PyVal.dict [], escList k.toList ++ (t ++ '}' :: rest))
            else (parseMembers f' ('"' :: (escList k.toList ++ (t ++ '}' :: rest)))).map
              fun p => (PyVal.dict p.1, p.2)) =
          some (PyVal.dict ((k, v) :: kvs), rest)
        rw [if_neg (show ('"' : Char) ≠ '}' by decide), hback,
          parseMembers_ser ((k, v) :: kvs) hmemIH f' rest (by simp) hjsonms
            (by have h : nsize (PyVal.dict ((k, v) :: kvs)) =
                  1 + nsizeMembers ((k, v) :: kvs) := rfl
                omega) hrest]
        rfl

/-! Fuel bound: nsize is at most the serialized length -/

theorem escChar_len_pos (c : Char) : 1 ≤ (escChar c).length := by
  rw [escChar]
  split_ifs <;> simp

theorem escList_len (cs : List Char) : cs.length ≤ (escList cs).length := by
  induction cs with
  | nil => simp [escList]
  | cons c cs ih =>
    rw [escList]
    simp only [List.length_append, List.length_cons]
    have := escChar_len_pos c
    omega

theorem nsizeElems_le_of (xs : List PyVal)
    (IH : ∀ x ∈ xs, pyJsonable x = true → nsize x ≤ (serCore x).length)
    (hj : pyJsonableList xs = true) :
    nsizeElems xs ≤ (serElemsList xs).length + 1 := by
  induction xs with
  | nil => simp [nsizeElems, serElemsList]
  | cons x xs ih =>
    simp only [pyJsonableList, Bool.and_eq_true] at hj
    have hx := IH x (by simp) hj.1
    have he : nsizeElems (x :: xs) = 1 + nsize x + nsizeElems xs := rfl
    cases xs with
    | nil =>
      have hz : nsizeElems ([] : List PyVal) = 0 := rfl
      have hs : serElemsList [x] = serCore x := rfl
      rw [he, hs, hz]
      omega
    | cons y ys =>
      have hrec := ih (fun z hz hjz => IH z (by simp [hz]) hjz) hj.2
      have hs : serElemsList (x :: y :: ys) = serCore x ++ ',' :: ' ' :: serElemsList (y :: ys) :=
        rfl
      rw [he, hs]
      simp only [List.length_append, List.length_cons]
      omega

theorem nsizeMembers_le_of (kvs : List (String × PyVal))
    (IH : ∀ kv ∈ kvs, pyJsonable kv.2 = true → nsize kv.2 ≤ (serCore kv.2).length)
    (hj : pyJsonableMembers kvs = true) :
    nsizeMembers kvs ≤ (serMembersList kvs).length + 1 := by
  induction kvs with
  | nil => simp [nsizeMembers, serMembersList]
  | cons kv kvs ih =>
    obtain ⟨k, v⟩ := kv
    simp only [pyJsonableMembers, Bool.and_eq_true] at hj
    have hx := IH (k, v) (by simp) hj.1
    have he : nsizeMembers ((k, v) :: kvs) = 1 + k.toList.length + nsize v + nsizeMembers kvs :=
      rfl
    have hk := escList_len k.toList
    cases kvs with
    | nil =>
      have hz : nsizeMembers ([] : List (String × PyVal)) = 0 := rfl
      have hs : serMembersList [(k, v)] = encStr k ++ ':' :: ' ' :: serCore v := rfl
      rw [he, hs, hz, encStr]
      simp only [List.length_append, List.length_cons]
      simp only at hx
      omega
    | cons kv2 ms =>
      obtain ⟨k2, v2⟩ := kv2
      have hrec := ih (fun z hz hjz => IH z (by simp [hz]) hjz) hj.2
      have hs : serMembersList ((k, v) :: (k2, v2) :: ms) =
          encStr k ++ ':' :: ' ' :: (serCore v ++ ',' :: ' ' :: serMembersList ((k2, v2) :: ms)) :=
        rfl
      rw [he, hs, encStr]
      simp only [List.length_append, List.length_cons]
      simp only at hx
      omega

theorem nsize_le_serLen : ∀ N : Nat, ∀ v : PyVal, sizeOf v ≤ N → pyJsonable v = true →
    nsize v ≤ (serCore v).length := by
  intro N
  induction N with
  | zero =>
    intro v hv
    cases v <;> simp at hv
  | succ N ih =>
    intro v hv hj
    cases v with
    | null => exact Nat.le_of_eq rfl |>.trans (by simp [serCore, nsize])
    | bool b =>
      cases b with
      | false => show nsize (PyVal.bool false) ≤ 5; exact Nat.le_of_lt (by show 1 < 5; omega)
      | true => show nsize (PyVal.bool true) ≤ 4; exact Nat.le_of_lt (by show 1 < 4; omega)
    | int n =>
      obtain ⟨c, cs, heq, _⟩ := intToDec_head n
      show nsize (PyVal.int n) ≤ (intToDec n).length
      rw [heq]
      have h : nsize (PyVal.int n) = 1 := rfl
      simp [h]
    | str s =>
      show 1 + s.toList.length ≤ (encStr s).length
      rw [encStr]
      have := escList_len s.toList
      simp only [List.length_cons, List.length_append, List.length_cons, List.length_nil]
      omega
    | bytes bs => simp [pyJsonable] at hj
    | list xs =>
      have hjl : pyJsonableList xs = true := by simpa [pyJsonable] using hj
      have haux := nsizeElems_le_of xs (fun x hx hjx => ih x (by
        have h1 : sizeOf x < sizeOf xs := List.sizeOf_lt_of_mem hx
        have h2 : sizeOf (PyVal.list xs) = 1 + sizeOf xs := by simp
        omega) hjx) hjl
      show 1 + nsizeElems xs ≤ ('[' :: (serElemsList xs ++ [']'])).length
      simp only [List.length_cons, List.length_append, List.length_nil]
      omega
    | dict kvs =>
      have hjm : pyJsonableMembers kvs = true := by
        have h : pyJsonable (PyVal.dict kvs) =
            (noDupStr (kvs.map Prod.fst) && pyJsonableMembers kvs) := rfl
        rw [h, Bool.and_eq_true] at hj
        exact hj.2
      have haux := nsizeMembers_le_of kvs (fun kv hkv hjkv => ih kv.2 (by
        have h1 : sizeOf kv < sizeOf kvs := List.sizeOf_lt_of_mem hkv
        have h2 : sizeOf (PyVal.dict kvs) = 1 + sizeOf kvs := by simp
        obtain ⟨k2, v2⟩ := kv
        have h3 : sizeOf ((k2, v2) : String × PyVal) = 1 + sizeOf k2 + sizeOf v2 := by simp
        simp only at h1 ⊢
        omega) hjkv) hjm
      show 1 + nsizeMembers kvs ≤ ('{' :: (serMembersList kvs ++ ['}'])).length
      simp only [List.length_cons, List.length_append, List.length_nil]
      omega

theorem dumps_loads (E : PyVal) (h : pyJsonable E = true) :
    (dumps E).bind loads = some E := by
  rw [dumps, if_pos h]
  show loads (String.mk (serCore E)) = some E
  rw [loads]
  have hlen : (String.mk (serCore E)).length = (serCore E).length := rfl
  have htl : (String.mk (serCore E)).toList = serCore E := rfl
  rw [hlen, htl]
  have hps := parseVal_serCore (sizeOf E) E (le_refl _) ((serCore E).length + 1) [] h
    (by have := nsize_le_serLen (sizeOf E) E (le_refl _) h; omega) rfl
  rw [List.append_nil] at hps
  rw [hps]
  rfl

/-! Helper lemmas about channel prefixes, `pyBeq`, and key lookup. -/

theorem doc_not_market {ch : String} (h : pyStartsWith ch "doc" = true) :
    pyStartsWith ch "market" = false := by
  rw [pyStartsWith, List.isPrefixOf_iff_prefix] at h
  by_contra hm
  rw [Bool.not_eq_false, pyStartsWith, List.isPrefixOf_iff_prefix] at hm
  rcases List.prefix_or_prefix_of_prefix h hm with hp | hp
  · exact absurd hp (by decide)
  · exact absurd hp (by decide)

theorem document_imp_doc {ch : String} (h : pyStartsWith ch "document" = true) :
    pyStartsWith ch "doc" = true := by
  rw [pyStartsWith, List.isPrefixOf_iff_prefix] at h ⊢
  exact List.IsPrefix.trans (by decide) h

theorem pyBeq_ne {a b : PyVal} (h : a ≠ b) : pyBeq a b = false := by
  cases hb : pyBeq a b
  · rfl
  · exact absurd ((pyBeq_iff _ _).mp hb) h

theorem pyBeq_eq_decide (a b : PyVal) : pyBeq a b = decide (a = b) := by
  by_cases h : a = b
  · subst h
    simp [(pyBeq_iff a a).mpr rfl]
  · simp [h, pyBeq_ne h]

theorem lookup_erase_self (l : List (String × PyVal)) (k : String) :
    (l.filter (fun kv => kv.1 != k)).lookup k = none := by
  induction l with
  | nil => rfl
  | cons kv l ih =>
    obtain ⟨k1, v1⟩ := kv
    by_cases h : k1 = k
    · subst h
      simp [List.filter_cons, ih]
    · have hb : (k == k1) = false := beq_eq_false_iff_ne.mpr (Ne.symm h)
      have hp : ((k1, v1).1 != k) = true := bne_iff_ne.mpr h
      simp [List.filter_cons, hp, List.lookup, hb, ih]

theorem lookup_erase_other (l : List (String × PyVal)) (k k' : String) (h : k' ≠ k) :
    (l.filter (fun kv => kv.1 != k)).lookup k' = l.lookup k' := by
  induction l with
  | nil => rfl
  | cons kv l ih =>
    obtain ⟨k1, v1⟩ := kv
    by_cases h1 : k1 = k
    · have hp : ((k1, v1).1 != k) = false := by simp [bne, h1]
      have hb : (k' == k1) = false := beq_eq_false_iff_ne.mpr (by rw [h1]; exact h)
      simp [List.filter_cons, hp, List.lookup, hb, ih]
    · by_cases h2 : k' = k1
      · have hp : ((k1, v1).1 != k) = true := bne_iff_ne.mpr h1
        have hb : (k' == k1) = true := beq_iff_eq.mpr h2
        simp [List.filter_cons, hp, List.lookup, hb]
      · have hp : ((k1, v1).1 != k) = true := bne_iff_ne.mpr h1
        have hb : (k' == k1) = false := beq_eq_false_iff_ne.mpr h2
        simp [List.filter_cons, hp, List.lookup, hb, ih]

theorem fetchResolve_b64 (http : Http) (resp : List (String × PyVal)) (s : String)
    (bs : List Nat) (hlk : resp.lookup "content_base64" = some (.str s)) (hne : s ≠ "")
    (hdec : b64decode s = some bs) :
    MCPDocumentClient.fetchResolve http resp = ⟨.ok bs, []⟩ := by
  have ht : pyTruthy (.str s) = true := by simp [pyTruthy, hne]
  rw [MCPDocumentClient.fetchResolve, hlk]
  simp only [Option.getD_some, ht, if_true, hdec]

theorem fetchResolve_rawContent (http : Http) (resp : List (String × PyVal)) (bs : List Nat)
    (hf : pyTruthy ((resp.lookup "content_base64").getD .null) = false)
    (hc : resp.lookup "content" = some (.bytes bs)) :
    MCPDocumentClient.fetchResolve http resp = ⟨.ok bs, []⟩ := by
  rw [MCPDocumentClient.fetchResolve, hf, hc]
  simp

theorem fetchResolve_signedUrl (http : Http) (resp : List (String × PyVal)) (url : String)
    (hf : pyTruthy ((resp.lookup "content_base64").getD .null) = false)
    (hc : ∀ bs, resp.lookup "content" ≠ some (.bytes bs))
    (hs : resp.lookup "signed_url" = some (.str url)) :
    MCPDocumentClient.fetchResolve http resp =
      ⟨if httpIsSuccess (http url).status then .ok (http url).content
        else .error (.httpStatusError (http url).status), [url]⟩ := by
  rw [MCPDocumentClient.fetchResolve, hf]
  simp only [Bool.false_eq_true, if_false]
  cases hcl : resp.lookup "content" with
  | none =>
    rw [hs]
    by_cases hok : httpIsSuccess (http url).status = true
    · simp [hok]
    · simp only [Bool.not_eq_true] at hok
      simp [hok]
  | some v =>
    cases v with
    | bytes bs => exact absurd hcl (hc bs)
    | null =>
      rw [hs]
      by_cases hok : httpIsSuccess (http url).status = true
      · simp [hok]
      · simp only [Bool.not_eq_true] at hok
        simp [hok]
    | bool b =>
      rw [hs]
      by_cases hok : httpIsSuccess (http url).status = true
      · simp [hok]
      · simp only [Bool.not_eq_true] at hok
        simp [hok]
    | int n =>
      rw [hs]
      by_cases hok : httpIsSuccess (http url).status = true
      · simp [hok]
      · simp only [Bool.not_eq_true] at hok
        simp [hok]
    | str s =>
      rw [hs]
      by_cases hok : httpIsSuccess (http url).status = true
      · simp [hok]
      · simp only [Bool.not_eq_true] at hok
        simp [hok]
    | list xs =>
      rw [hs]
      by_cases hok : httpIsSuccess (http url).status = true
      · simp [hok]
      · simp only [Bool.not_eq_true] at hok
        simp [hok]
    | dict kvs =>
      rw [hs]
      by_cases hok : httpIsSuccess (http url).status = true
      · simp [hok]
      · simp only [Bool.not_eq_true] at hok
        simp [hok]

theorem fetchResolve_missing (http : Http) (resp : List (String × PyVal))
    (hf : pyTruthy ((resp.lookup "content_base64").getD .null) = false)
    (hc : ∀ bs, resp.lookup "content" ≠ some (.bytes bs))
    (hs : resp.lookup "signed_url" = none) :
    MCPDocumentClient.fetchResolve http resp =
      ⟨.error (.valueError "MCP fetch response missing content"), []⟩ := by
  rw [MCPDocumentClient.fetchResolve, hf]
  simp only [Bool.false_eq_true, if_false]
  cases hcl : resp.lookup "content" with
  | none => rw [hs]
  | some v =>
    cases v with
    | bytes bs => exact absurd hcl (hc bs)
    | null => rw [hs]
    | bool b => rw [hs]
    | int n => rw [hs]
    | str s => rw [hs]
    | list xs => rw [hs]
    | dict kvs => rw [hs]

/-- C1: for every envelope whose channel is a string with prefix `market` and whose
message has action `history`, the server's dispatch returns the market connector's
result `{symbol, data, source: "yahoo"}`, with symbol, range and interval taken
from `message.params` (defaults `"AAPL"`, `"1mo"`, `"1d"` when absent); an empty
row list from the provider still yields this non-error result. -/
theorem C1_market_history_dispatch
    (download : Download) (http : Http) (kvs pkvs prms : List (String × PyVal))
    (ch : String) (rows : List PyVal)
    (hch : kvs.lookup "channel" = some (.str ch))
    (hpre : pyStartsWith ch "market" = true)
    (hmsg : kvs.lookup "message" = some (.dict pkvs))
    (hact : pkvs.lookup "action" = some (.str "history"))
    (hparams : pkvs.lookup "params" = some (.dict prms) ∨
               (pkvs.lookup "params" = none ∧ prms = []))
    (hdl : download ((prms.lookup "symbol").getD (.str "AAPL"))
                    ((prms.lookup "range").getD (.str "1mo"))
                    ((prms.lookup "interval").getD (.str "1d")) = .ok rows) :
    MCPServer.dispatch download http (.dict kvs) =
      .ok (.dict [("symbol", (prms.lookup "symbol").getD (.str "AAPL")),
                  ("data", .list rows),
                  ("source", .str "yahoo")]) := by
  have hbeq : pyBeq (.str "history") (.str "history") = true := (pyBeq_iff _ _).mpr rfl
  rcases hparams with hp | ⟨hp, rfl⟩
  · simp [MCPServer.dispatch, pyGet, Bind.bind, Except.bind, hch, hmsg, hact, hpre, hbeq, hp,
      MarketConnector.history, hdl]
  · simp only [List.lookup_nil, Option.getD_none] at hdl
    simp [MCPServer.dispatch, pyGet, Bind.bind, Except.bind, hch, hmsg, hact, hpre, hbeq, hp,
      MarketConnector.history, hdl]

theorem C1_witness :
    ([("channel", PyVal.str "market")] : List (String × PyVal)).lookup "channel" =
        some (.str "market") ∧
    MCPServer.dispatch download0 http200
      (.dict [("channel", .str "market"),
              ("message", .dict [("action", .str "history"),
                                 ("params", .dict [("symbol", .str "AAPL")])])]) =
      .ok (.dict [("symbol", .str "AAPL"), ("data", .list []), ("source", .str "yahoo")]) := by
  refine ⟨rfl, ?_⟩
  exact C1_market_history_dispatch download0 http200
    [("channel", .str "market"),
     ("message", .dict [("action", .str "history"),
                        ("params", .dict [("symbol", .str "AAPL")])])]
    [("action", .str "history"), ("params", .dict [("symbol", .str "AAPL")])]
    [("symbol", .str "AAPL")] "market" []
    rfl rfl rfl rfl (Or.inl rfl) rfl

/-- C2, counterexample: a response carrying `content_base64` bound to the empty
string is *present* and its base64 decoding is the empty buffer, yet fetch does not
return that buffer: the branch tests truthiness, so the empty string falls through
(here to the signed URL when one is present, else to the MissingContent error). -/
theorem C2_empty_b64_cex :
    (MCPDocumentClient.fetchResolve http200
        [("content_base64", .str ""), ("signed_url", .str "http://s")]).result =
      .ok ((http200 "http://s").content) ∧
    b64decode "" = some [] ∧
    (MCPDocumentClient.fetchResolve http200 [("content_base64", .str "")]).result =
      .error (.valueError "MCP fetch response missing content") :=
  ⟨rfl, rfl, rfl⟩

/-- C2, amended: resolution precedence of the document client's fetch is
encoded-content (when `content_base64` is present as a *non-empty* string, its
base64 decoding is returned and the signed URL is never dereferenced even when
present) → bytes-typed `content` field → dereference of `signed_url` over HTTP →
`MissingContent` error when none of the three shapes applies. -/
theorem C2_fetch_resolution (http : Http) (resp : List (String × PyVal)) :
    (∀ s bs, resp.lookup "content_base64" = some (.str s) → s ≠ "" → b64decode s = some bs →
      MCPDocumentClient.fetchResolve http resp = ⟨.ok bs, []⟩)
  ∧ (∀ bs, pyTruthy ((resp.lookup "content_base64").getD .null) = false →
      resp.lookup "content" = some (.bytes bs) →
      MCPDocumentClient.fetchResolve http resp = ⟨.ok bs, []⟩)
  ∧ (∀ url, pyTruthy ((resp.lookup "content_base64").getD .null) = false →
      (∀ bs, resp.lookup "content" ≠ some (.bytes bs)) →
      resp.lookup "signed_url" = some (.str url) →
      MCPDocumentClient.fetchResolve http resp =
        ⟨if httpIsSuccess (http url).status then .ok (http url).content
          else .error (.httpStatusError (http url).status), [url]⟩)
  ∧ (pyTruthy ((resp.lookup "content_base64").getD .null) = false →
      (∀ bs, resp.lookup "content" ≠ some (.bytes bs)) →
      resp.lookup "signed_url" = none →
      MCPDocumentClient.fetchResolve http resp =
        ⟨.error (.valueError "MCP fetch response missing content"), []⟩) :=
  ⟨fun s bs hlk hne hdec => fetchResolve_b64 http resp s bs hlk hne hdec,
   fun bs hf hc => fetchResolve_rawContent http resp bs hf hc,
   fun url hf hc hs => fetchResolve_signedUrl http resp url hf hc hs,
   fun hf hc hs => fetchResolve_missing http resp hf hc hs⟩

theorem C2_witness :
    MCPDocumentClient.fetchResolve http200
        [("content_base64", .str "TWFu"), ("signed_url", .str "http://s")] =
      ⟨.ok [77, 97, 110], []⟩ ∧
    MCPDocumentClient.fetchResolve http200 [("content", .bytes [1, 2])] = ⟨.ok [1, 2], []⟩ ∧
    MCPDocumentClient.fetchResolve http200 [("signed_url", .str "http://s")] =
      ⟨.ok (http200 "http://s").content, ["http://s"]⟩ ∧
    MCPDocumentClient.fetchResolve http200 [("other", .int 1)] =
      ⟨.error (.valueError "MCP fetch response missing content"), []⟩ := by
  refine ⟨?_, ?_, ?_, ?_⟩
  · exact (C2_fetch_resolution http200
      [("content_base64", .str "TWFu"), ("signed_url", .str "http://s")]).1
      "TWFu" [77, 97, 110] rfl (by decide) rfl
  · exact (C2_fetch_resolution http200 [("content", .bytes [1, 2])]).2.1 [1, 2] rfl rfl
  · have h := (C2_fetch_resolution http200 [("signed_url", .str "http://s")]).2.2.1
      "http://s" rfl
      (fun bs h => Option.noConfusion (show (none : Option PyVal) = some (.bytes bs) from h)) rfl
    rw [h]
    rfl
  · exact (C2_fetch_resolution http200 [("other", .int 1)]).2.2.2 rfl
      (fun bs h => Option.noConfusion (show (none : Option PyVal) = some (.bytes bs) from h)) rfl

/-- C3, counterexample: a well-formed `doc`/`fetch` envelope whose document fetch
answers with HTTP status 500 makes the per-connection handler itself raise
(`raise_for_status`): the exception is not converted into an error payload and no
response is produced for the frame. -/
theorem C3_connector_exception_cex :
    MCPServer.handler download0 http500
      [String.mk (serCore (.dict [("channel", .str "doc"),
        ("message", .dict [("action", .str "fetch"), ("uri", .str "http://x")])]))] =
      .error (.httpStatusError 500) := rfl

/-- C3, amended: the handler answers every frame whose processing does not raise —
JSON decode failures are caught and answered with the structured
`{"error": "invalid JSON"}` payload, and when handling completes without an
exception there is exactly one response per received frame — but a connector
exception propagates out of the per-connection handler, aborting frame processing
with no response for that frame. -/
theorem C3_handler_behavior :
    (∀ (download : Download) (http : Http) (raw : String), loads raw = none →
      MCPServer.handlerFrame download http raw = .ok (.dict [("error", .str "invalid JSON")]))
  ∧ (∀ (download : Download) (http : Http) (frames : List String) (responses : List PyVal),
      MCPServer.handler download http frames = .ok responses →
      responses.length = frames.length)
  ∧ (∀ (download : Download) (http : Http) (raw : String) (rest : List String) (e : PyErr),
      MCPServer.handlerFrame download http raw = .error e →
      MCPServer.handler download http (raw :: rest) = .error e) := by
  refine ⟨?_, ?_, ?_⟩
  · intro download http raw h
    simp [MCPServer.handlerFrame, h]
  · intro download http frames
    induction frames with
    | nil =>
      intro responses h
      simp [MCPServer.handler] at h
      simp [← h]
    | cons raw rest ih =>
      intro responses h
      rw [MCPServer.handler] at h
      cases hf : MCPServer.handlerFrame download http raw with
      | error e => rw [hf] at h; simp [Bind.bind, Except.bind] at h
      | ok r =>
        rw [hf] at h
        cases hh : MCPServer.handler download http rest with
        | error e => rw [hh] at h; simp [Bind.bind, Except.bind] at h
        | ok rs =>
          rw [hh] at h
          simp [Bind.bind, Except.bind] at h
          subst h
          simp [ih rs hh]
  · intro download http raw rest e h
    simp [MCPServer.handler, h, Bind.bind, Except.bind]

theorem C3_witness :
    MCPServer.handlerFrame download0 http200 "@@" =
      .ok (.dict [("error", .str "invalid JSON")]) ∧
    ([PyVal.dict [("error", .str "invalid JSON")]].length = (["@@"] : List String).length) ∧
    MCPServer.handler download0 http500 ["5", "next"] = .error (.attributeError "get") := by
  refine ⟨C3_handler_behavior.1 download0 http200 "@@" rfl, ?_, ?_⟩
  · exact C3_handler_behavior.2.1 download0 http200 ["@@"]
      [PyVal.dict [("error", .str "invalid JSON")]]
      (by rw [MCPServer.handler]; rfl)
  · exact C3_handler_behavior.2.2 download0 http500 "5" ["next"] (.attributeError "get") rfl

/-- C4: for every valid envelope `E` (a mapping with a string `channel`, a mapping
`message`, and optional boolean `subscribe`/`reply` flags, containing only
JSON-serialisable values with distinct keys), decoding the encoded text payload
yields `E` exactly: `loads (dumps E) = some E`. -/
theorem C4_envelope_roundtrip (E : PyVal) (h : validEnvelope E = true) :
    (dumps E).bind loads = some E := by
  have hj : pyJsonable E = true := by
    rw [validEnvelope.eq_def, Bool.and_eq_true] at h
    exact h.1
  exact dumps_loads E hj

theorem C4_witness :
    validEnvelope envelope0 = true ∧ (dumps envelope0).bind loads = some envelope0 :=
  ⟨rfl, C4_envelope_roundtrip envelope0 rfl⟩

/-- C5: when no response arrives within the timeout, `request` fails with the
distinct timeout failure (`TimeoutError`, modelled by the dedicated
`PyErr.timeoutError` constructor, not a generic network error) whose message names
the channel, and the connection is closed on every exit path — success, decode
error, or timeout. -/
theorem C5_request_timeout (channel : String) (reply : Option String) :
    (reply = none →
      (MCPMessageBus.request channel reply).result =
        .error (.timeoutError ("MCP bus request to " ++ channel ++ " timed out"))) ∧
    (MCPMessageBus.request channel reply).connectionClosed = true := by
  constructor
  · intro h
    subst h
    rfl
  · rfl

theorem C5_witness :
    (MCPMessageBus.request "market" none).result =
      .error (.timeoutError "MCP bus request to market timed out") ∧
    (MCPMessageBus.request "market" none).connectionClosed = true ∧
    (MCPMessageBus.request "market" (some "ok")).connectionClosed = true := by
  refine ⟨?_, (C5_request_timeout "market" none).2, (C5_request_timeout "market" (some "ok")).2⟩
  have h := (C5_request_timeout "market" none).1 rfl
  rw [h]
  rfl

/-- C6, counterexample: on a payload that is not decodable JSON the server replies
`{"error": "invalid JSON"}`, which differs from the `{"error": "invalid payload"}`
the claim states. -/
theorem C6_invalid_payload_cex :
    MCPServer.handlerFrame download0 http200 "@@" =
      .ok (.dict [("error", .str "invalid JSON")]) ∧
    PyVal.dict [("error", .str "invalid JSON")] ≠
      PyVal.dict [("error", .str "invalid payload")] :=
  ⟨rfl, by decide⟩

/-- C6, amended: for every received payload whose JSON decoding fails, the server
replies with the structured `{"error": "invalid JSON"}` payload and continues
listening on the same connection (the remaining frames are processed unchanged);
and for every non-structured response body received by the client's `request`, the
result degrades to `{payload: rawText}` instead of raising. -/
theorem C6_decode_failure_handling :
    (∀ (download : Download) (http : Http) (raw : String) (rest : List String),
      loads raw = none →
      MCPServer.handler download http (raw :: rest) =
        (MCPServer.handler download http rest).map
          (fun rs => .dict [("error", .str "invalid JSON")] :: rs))
  ∧ (∀ (channel raw : String), loads raw = none →
      (MCPMessageBus.request channel (some raw)).result = .ok (.dict [("payload", .str raw)])) := by
  constructor
  · intro download http raw rest h
    cases hh : MCPServer.handler download http rest with
    | ok rs =>
      simp [MCPServer.handler, MCPServer.handlerFrame, h, Bind.bind, Except.bind, Except.map, hh]
    | error e =>
      simp [MCPServer.handler, MCPServer.handlerFrame, h, Bind.bind, Except.bind, Except.map, hh]
  · intro channel raw h
    simp [MCPMessageBus.request, withConnection, h]

theorem C6_witness :
    MCPServer.handler download0 http200 ["@@"] =
      .ok [.dict [("error", .str "invalid JSON")]] ∧
    (MCPMessageBus.request "market" (some "@@")).result = .ok (.dict [("payload", .str "@@")]) := by
  constructor
  · have h := C6_decode_failure_handling.1 download0 http200 "@@" [] rfl
    rw [h]
    rfl
  · exact C6_decode_failure_handling.2 "market" "@@" rfl

/-- C7: for every decodable envelope that misses routing the server returns a
structured error payload and never raises: a market-prefixed channel with an action
other than `history` yields `Unsupported market action: <action>`, a
`document`/`doc`-prefixed channel with an action other than `fetch` yields
`Unsupported document action: <action>`, and a channel matching no known prefix
yields `Unknown channel: <channel>`. -/
theorem C7_routing_errors (download : Download) (http : Http) :
    (∀ kvs pkvs ch act,
      kvs.lookup "channel" = some (.str ch) →
      kvs.lookup "message" = some (.dict pkvs) →
      (pkvs.lookup "action").getD .null = act →
      pyStartsWith ch "market" = true → act ≠ .str "history" →
      MCPServer.dispatch download http (.dict kvs) =
        .ok (.dict [("error", .str ("Unsupported market action: " ++ pyStr act))]))
  ∧ (∀ kvs pkvs ch act,
      kvs.lookup "channel" = some (.str ch) →
      kvs.lookup "message" = some (.dict pkvs) →
      (pkvs.lookup "action").getD .null = act →
      pyStartsWith ch "doc" = true → act ≠ .str "fetch" →
      MCPServer.dispatch download http (.dict kvs) =
        .ok (.dict [("error", .str ("Unsupported document action: " ++ pyStr act))]))
  ∧ (∀ kvs pkvs ch,
      kvs.lookup "channel" = some (.str ch) →
      kvs.lookup "message" = some (.dict pkvs) →
      pyStartsWith ch "market" = false → pyStartsWith ch "doc" = false →
      MCPServer.dispatch download http (.dict kvs) =
        .ok (.dict [("error", .str ("Unknown channel: " ++ ch))])) := by
  refine ⟨?_, ?_, ?_⟩
  · intro kvs pkvs ch act hch hmsg hact hpre hne
    have hbeq := pyBeq_ne hne
    simp [MCPServer.dispatch, pyGet, Bind.bind, Except.bind, hch, hmsg, hact, hpre, hbeq]
  · intro kvs pkvs ch act hch hmsg hact hpre hne
    have hbeq := pyBeq_ne hne
    have hm := doc_not_market hpre
    simp [MCPServer.dispatch, pyGet, Bind.bind, Except.bind, hch, hmsg, hact, hpre, hm, hbeq]
  · intro kvs pkvs ch hch hmsg hm hd
    have hdoc : pyStartsWith ch "document" = false := by
      cases hdd : pyStartsWith ch "document"
      · rfl
      · exact absurd (document_imp_doc hdd) (by simp [hd])
    simp [MCPServer.dispatch, pyGet, Bind.bind, Except.bind, hch, hmsg, hm, hd, hdoc]

theorem C7_witness :
    MCPServer.dispatch download0 http200
        (.dict [("channel", .str "market"), ("message", .dict [("action", .str "bogus")])]) =
      .ok (.dict [("error", .str "Unsupported market action: bogus")]) ∧
    MCPServer.dispatch download0 http200
        (.dict [("channel", .str "document"), ("message", .dict [("action", .str "ocr")])]) =
      .ok (.dict [("error", .str "Unsupported document action: ocr")]) ∧
    MCPServer.dispatch download0 http200
        (.dict [("channel", .str "unknownchan"), ("message", .dict [])]) =
      .ok (.dict [("error", .str "Unknown channel: unknownchan")]) := by
  refine ⟨?_, ?_, ?_⟩
  · exact (C7_routing_errors download0 http200).1
      [("channel", .str "market"), ("message", .dict [("action", .str "bogus")])]
      [("action", .str "bogus")] "market" (.str "bogus") rfl rfl rfl (by decide) (by decide)
  · exact (C7_routing_errors download0 http200).2.1
      [("channel", .str "document"), ("message", .dict [("action", .str "ocr")])]
      [("action", .str "ocr")] "document" (.str "ocr") rfl rfl rfl (by decide) (by decide)
  · exact (C7_routing_errors download0 http200).2.2
      [("channel", .str "unknownchan"), ("message", .dict [])]
      [] "unknownchan" rfl rfl (by decide) (by decide)

/-- C8: for every market request `r`, `stream_prices r` yields exactly those
messages of the generic market-channel subscription whose `symbol` field equals
`r.symbol`, in arrival order, and yields nothing for ticks of other symbols. -/
theorem C8_stream_prices_filter (r : MarketRequest) :
    ∀ events : List PyVal,
      (∀ ev ∈ events, (∃ kvs, ev = .dict kvs) ∧ ∃ pkvs, eventMessage ev = .dict pkvs) →
      MCPMarketClient.streamPrices r events =
        .ok ((events.map eventMessage).filter
          (fun p => decide (payloadSymbol p = PyVal.str r.symbol))) := by
  intro events
  induction events with
  | nil => intro _; rfl
  | cons ev rest ih =>
    intro h
    obtain ⟨⟨kvs, rfl⟩, pkvs, hp⟩ := h ev (by simp)
    have htl := ih (fun z hz => h z (by simp [hz]))
    have h1 : pyGet (.dict kvs) "message" (.dict []) = .ok (eventMessage (.dict kvs)) := rfl
    have h2 : pyGet (eventMessage (.dict kvs)) "symbol" .null =
        .ok (payloadSymbol (eventMessage (.dict kvs))) := by
      rw [hp]
      rfl
    rw [MCPMarketClient.streamPrices]
    rw [show (do
        let payload ← pyGet (PyVal.dict kvs) "message" (.dict [])
        let sym ← pyGet payload "symbol" .null
        let tail ← MCPMarketClient.streamPrices r rest
        if pyBeq sym (.str r.symbol) then .ok (payload :: tail) else .ok tail :
          Except PyErr (List PyVal)) =
      (do
        let tail ← MCPMarketClient.streamPrices r rest
        if pyBeq (payloadSymbol (eventMessage (.dict kvs))) (.str r.symbol) then
          .ok (eventMessage (.dict kvs) :: tail) else .ok tail) from by
      rw [h1]
      simp only [Bind.bind, Except.bind]
      rw [h2]]
    rw [htl]
    simp only [Bind.bind, Except.bind, pyBeq_eq_decide, List.map_cons, List.filter_cons]
    by_cases hc : payloadSymbol (eventMessage (.dict kvs)) = PyVal.str r.symbol
    · simp [hc]
    · simp [hc]

theorem C8_witness :
    MCPMarketClient.streamPrices ⟨"MSFT", "1mo", "1h"⟩
      [.dict [("message", .dict [("symbol", .str "AAPL"), ("price", .int 1)])],
       .dict [("message", .dict [("symbol", .str "MSFT"), ("price", .int 2)])],
       .dict [("message", .dict [("symbol", .str "GOOG"), ("price", .int 3)])],
       .dict [("message", .dict [("symbol", .str "MSFT"), ("price", .int 4)])]] =
      .ok [.dict [("symbol", .str "MSFT"), ("price", .int 2)],
           .dict [("symbol", .str "MSFT"), ("price", .int 4)]] := by
  have h := C8_stream_prices_filter ⟨"MSFT", "1mo", "1h"⟩
    [.dict [("message", .dict [("symbol", .str "AAPL"), ("price", .int 1)])],
     .dict [("message", .dict [("symbol", .str "MSFT"), ("price", .int 2)])],
     .dict [("message", .dict [("symbol", .str "GOOG"), ("price", .int 3)])],
     .dict [("message", .dict [("symbol", .str "MSFT"), ("price", .int 4)])]]
    (by
      intro ev hev
      simp only [List.mem_cons, List.not_mem_nil, or_false] at hev
      rcases hev with rfl | rfl | rfl | rfl
      · exact ⟨⟨_, rfl⟩, _, rfl⟩
      · exact ⟨⟨_, rfl⟩, _, rfl⟩
      · exact ⟨⟨_, rfl⟩, _, rfl⟩
      · exact ⟨⟨_, rfl⟩, _, rfl⟩)
  rw [h]
  rfl

/-- C9: when the fetch response binds `content_base64` to the empty string, the
base64 branch is not taken (it is selected by truthiness, not key presence): fetch
behaves exactly as if the key were absent, falling through to the raw-content and
signed-URL shapes, and fails with the MissingContent error when neither is
present. -/
theorem C9_empty_b64_falls_through (http : Http) (resp : List (String × PyVal))
    (h : resp.lookup "content_base64" = some (.str "")) :
    MCPDocumentClient.fetchResolve http resp =
      MCPDocumentClient.fetchResolve http (resp.filter (fun kv => kv.1 != "content_base64")) ∧
    (resp.lookup "content" = none → resp.lookup "signed_url" = none →
      MCPDocumentClient.fetchResolve http resp =
        ⟨.error (.valueError "MCP fetch response missing content"), []⟩) := by
  have hself := lookup_erase_self resp "content_base64"
  have hcontent := lookup_erase_other resp "content_base64" "content" (by decide)
  have hsigned := lookup_erase_other resp "content_base64" "signed_url" (by decide)
  constructor
  · rw [MCPDocumentClient.fetchResolve, MCPDocumentClient.fetchResolve, h, hself, hcontent,
      hsigned]
    rfl
  · intro hc hs
    rw [MCPDocumentClient.fetchResolve, h, hc, hs]
    rfl

theorem C9_witness :
    MCPDocumentClient.fetchResolve http200 [("content_base64", .str "")] =
      MCPDocumentClient.fetchResolve http200 [] ∧
    MCPDocumentClient.fetchResolve http200 [("content_base64", .str "")] =
      ⟨.error (.valueError "MCP fetch response missing content"), []⟩ := by
  have h := C9_empty_b64_falls_through http200 [("content_base64", .str "")] rfl
  exact ⟨h.1, h.2 rfl rfl⟩

/-- C10, counterexample: the envelope `{"message": 5}` lacks `channel`, yet
dispatch raises `AttributeError` (at `payload.get("action")`, since the present
`message` value is not a mapping) instead of returning a structured error. -/
theorem C10_missing_channel_raises :
    MCPServer.dispatch download0 http200 (.dict [("message", .int 5)]) =
      .error (.attributeError "get") := rfl

/-- C10, amended: for every decoded envelope mapping lacking `channel` and/or
`message` — provided any *present* `message` value is a mapping — dispatch returns
a structured error without raising: a missing channel is treated as the empty
string and answered with `Unknown channel: `, and a missing message is treated as
an empty mapping whose action is `None`, answered with the corresponding
unsupported-action error on a market- or doc-prefixed channel. -/
theorem C10_missing_keys (download : Download) (http : Http) :
    (∀ kvs : List (String × PyVal), kvs.lookup "channel" = none →
      (kvs.lookup "message" = none ∨ ∃ pkvs, kvs.lookup "message" = some (.dict pkvs)) →
      MCPServer.dispatch download http (.dict kvs) =
        .ok (.dict [("error", .str "Unknown channel: ")]))
  ∧ (∀ (kvs : List (String × PyVal)) (ch : String), kvs.lookup "message" = none →
      kvs.lookup "channel" = some (.str ch) →
      pyStartsWith ch "market" = true →
      MCPServer.dispatch download http (.dict kvs) =
        .ok (.dict [("error", .str "Unsupported market action: None")]))
  ∧ (∀ (kvs : List (String × PyVal)) (ch : String), kvs.lookup "message" = none →
      kvs.lookup "channel" = some (.str ch) →
      pyStartsWith ch "doc" = true →
      MCPServer.dispatch download http (.dict kvs) =
        .ok (.dict [("error", .str "Unsupported document action: None")])) := by
  refine ⟨?_, ?_, ?_⟩
  · intro kvs hch hmsg
    rcases hmsg with hmsg | ⟨pkvs, hmsg⟩
    · simp [MCPServer.dispatch, pyGet, Bind.bind, Except.bind, hch, hmsg, pyStartsWith]
    · simp [MCPServer.dispatch, pyGet, Bind.bind, Except.bind, hch, hmsg, pyStartsWith]
  · intro kvs ch hmsg hch hpre
    have hbeq : pyBeq PyVal.null (.str "history") = false := rfl
    simp [MCPServer.dispatch, pyGet, Bind.bind, Except.bind, hch, hmsg, hpre, hbeq, pyStr,
      pyRepr]
  · intro kvs ch hmsg hch hpre
    have hm := doc_not_market hpre
    have hbeq : pyBeq PyVal.null (.str "fetch") = false := rfl
    simp [MCPServer.dispatch, pyGet, Bind.bind, Except.bind, hch, hmsg, hpre, hm, hbeq, pyStr,
      pyRepr]

theorem C10_witness :
    MCPServer.dispatch download0 http200 (.dict []) =
      .ok (.dict [("error", .str "Unknown channel: ")]) ∧
    MCPServer.dispatch download0 http200 (.dict [("channel", .str "market")]) =
      .ok (.dict [("error", .str "Unsupported market action: None")]) ∧
    MCPServer.dispatch download0 http200 (.dict [("channel", .str "doc")]) =
      .ok (.dict [("error", .str "Unsupported document action: None")]) := by
  refine ⟨?_, ?_, ?_⟩
  · exact (C10_missing_keys download0 http200).1 [] rfl (Or.inl rfl)
  · exact (C10_missing_keys download0 http200).2.1 [("channel", .str "market")] "market"
      rfl rfl (by decide)
  · exact (C10_missing_keys download0 http200).2.2 [("channel", .str "doc")] "doc"
      rfl rfl (by decide)
